import Mathlib

/-!
Shallow embedding of `src/watchmal/engine/engine_classifier.py`
(class `ClassifierEngine`).

External library objects (model weights, optimizer state, data batches)
are opaque type parameters; external library calls (the forward pass of
the network, the optimizer update performed by `backward`, the zennit
`Gradient` attributor) are function parameters.  `torch.save` output is
modelled as an association list from filename to checkpoint content
(`torch.load` looks the filename up).  Python iterators over the
validation data loader are modelled as entries of an explicit iterator
heap inside the engine state, so that the aliasing behaviour of the
`val_iter` object shared between `train` and `validate` (advancing an
iterator is a shared mutation, rebinding the `val_iter` name inside
`validate` is local) is reflected faithfully.  Scalar metrics use `ℚ`
in place of python floats.  Console printing, the CSV file handles
(record/write/flush are kept as lists of rows), the scheduler step and
the distributed all-gather branch (the model runs a single process,
`is_distributed = False`, where the "global" metrics equal the local
ones) are not modelled further.
-/

namespace Watchmal

attribute [local semireducible] Rat.add Rat.mul Rat.inv Rat.sub Rat.ofScientific

deriving instance DecidableEq for Except

/-- Python exceptions that the engine code can raise or propagate. -/
inductive PyErr
  | stopIteration
  | attrError
  | indexError
  | zeroDiv
  | ioError
  | fwdError
deriving DecidableEq

/-- Observable actions of a training run, recorded in order:
a checkpoint file write (`torch.save` in `save_state`), the completion of
one `validate` call (with flags telling whether its first batch fetch hit
the `StopIteration` handler and whether any of its fetches did), and the
completion of one training step on a batch. -/
inductive Event
  | saved (filename : String)
  | valCall (firstFetchRecovered : Bool) (anyFetchRecovered : Bool)
  | batchTrained (iteration : Nat)
deriving DecidableEq

/-- One row of the `log_val.csv` validation log: the fields of
`val_metrics` as recorded at the end of `validate` on rank 0. -/
structure ValEntry where
  iteration : Nat
  loss : ℚ
  accuracy : ℚ
  saved_best : Nat
  epoch : Nat
deriving DecidableEq

/-- One row of the per-rank training log `log_train_{rank}.csv`. -/
structure TrainEntry where
  iteration : Nat
  epoch : Nat
  loss : ℚ
  accuracy : ℚ
deriving DecidableEq

/-- The serialized object written by `save_state`: exactly the three keys
`global_step` (iteration counter), `optimizer` (optimizer state) and
`state_dict` (model weights). -/
structure Checkpoint (W O : Type) where
  global_step : Nat
  optimizer : O
  state_dict : W
deriving DecidableEq

/-- The engine state: the attributes of `ClassifierEngine` used by the
training, validation, checkpointing and evaluation code.  `β` is the
type of data batches, `W` the type of model weight assignments
(`state_dict`), `O` the type of optimizer states.  `heap` is the
iterator heap (entry `i` holds the items not yet yielded by iterator
`i`), `valLoader` the contents of `self.data_loaders["validation"]`,
`files` the checkpoint files on disk (most recent write first). -/
structure EngineState (β W O : Type) where
  dirpath : String
  modelName : String
  rank : Nat
  weights : W
  optimizer : Option O
  iteration : Nat
  epoch : Nat
  step : Nat
  bestValidationLoss : ℚ
  heap : List (List β)
  valLoader : List β
  files : List (String × Checkpoint W O)
  valLog : List ValEntry
  trainLog : List TrainEntry
  events : List Event
deriving DecidableEq

/-- Lookup in the iterator heap. -/
def heapGet {β : Type} : List (List β) → Nat → Option (List β)
  | [], _ => none
  | l :: _, 0 => some l
  | _ :: ls, n + 1 => heapGet ls n

/-- Update of one entry of the iterator heap. -/
def heapSet {β : Type} : List (List β) → Nat → List β → List (List β)
  | [], _, _ => []
  | _ :: ls, 0, v => v :: ls
  | l :: ls, n + 1, v => l :: heapSet ls n v

/-- `iter(self.data_loaders["validation"])`: allocate a fresh iterator
over the validation loader, returning its heap index. -/
def newIter {β W O : Type} (s : EngineState β W O) : Nat × EngineState β W O :=
  (s.heap.length, { s with heap := s.heap ++ [s.valLoader] })

/-- `next(it)`: yield the next item of iterator `it`, advancing it in the
heap; `none` models a `StopIteration`. -/
def heapNext {β W O : Type} (it : Nat) (s : EngineState β W O) :
    Option (β × EngineState β W O) :=
  match heapGet s.heap it with
  | none => none
  | some [] => none
  | some (b :: rest) => some (b, { s with heap := heapSet s.heap it rest })

/-- Filename used by `save_state` (and by `restore_best_state`):
`"{}{}{}{}".format(self.dirpath, str(self.model._get_name()), name, ".pth")`. -/
def saveFilename (dirpath modelName name : String) : String :=
  dirpath ++ modelName ++ name ++ ".pth"

/-- `ClassifierEngine.save_state` (engine_classifier.py lines 534-565):
builds the filename from the dump path, the model class name, the suffix
`name` and `".pth"`, and writes a single serialized object holding the
iteration counter, the optimizer state (`self.optimizer.state_dict()`,
an `AttributeError` if no optimizer was configured) and the model state
dict.  Returns the filename. -/
def save_state {β W O : Type} (name : String) (s : EngineState β W O) :
    Except PyErr (String × EngineState β W O) :=
  match s.optimizer with
  | none => .error .attrError
  | some o =>
    let filename := saveFilename s.dirpath s.modelName name
    .ok (filename,
      { s with
        files := (filename, ⟨s.iteration, o, s.weights⟩) :: s.files,
        events := s.events ++ [Event.saved filename] })

/-- `ClassifierEngine.restore_state_from_file` (lines 580-599): load the
checkpoint stored under `weight_file` (an `IOError` if the file does not
exist), restore the model weights from key `state_dict`, restore the
optimizer state from key `optimizer` if `self.optimizer is not None`,
and restore the iteration counter from key `global_step`. -/
def restore_state_from_file {β W O : Type} (weight_file : String)
    (s : EngineState β W O) : Except PyErr (EngineState β W O) :=
  match s.files.lookup weight_file with
  | none => .error .ioError
  | some ckpt =>
    .ok { s with
      weights := ckpt.state_dict,
      optimizer := s.optimizer.map (fun _ => ckpt.optimizer),
      iteration := ckpt.global_step }

/-- The `try: val_data = next(val_iter) / except StopIteration:` block of
`ClassifierEngine.validate` (lines 359-366): fetch the next validation
batch from iterator `it`; on `StopIteration` drop the exhausted iterator,
build a fresh iterator over the validation loader and fetch from it (a
`StopIteration` raised by this second `next` is not caught and
propagates).  Returns the batch, the iterator the local `val_iter` name
is now bound to, and whether the handler ran. -/
def fetchValBatch {β W O : Type} (it : Nat) (s : EngineState β W O) :
    Except PyErr (β × Nat × Bool × EngineState β W O) :=
  match heapNext it s with
  | some (b, s₁) => .ok (b, it, false, s₁)
  | none =>
    match newIter s with
    | (it', s₁) =>
      match heapNext it' s₁ with
      | some (b, s₂) => .ok (b, it', true, s₂)
      | none => .error .stopIteration

/-- The `for val_batch in range(num_val_batches)` loop of
`ClassifierEngine.validate` (lines 359-375): fetch a batch, run the
forward pass (`fwd` yields the loss and accuracy of `self.forward(False)`
on the current weights, or raises), and accumulate the loss and accuracy
sums.  Also returns the recovery flag of each batch fetch, in order. -/
def validateLoop {β W O : Type} (fwd : W → β → Except PyErr (ℚ × ℚ)) (it : Nat) :
    Nat → ℚ → ℚ → EngineState β W O → Except PyErr (ℚ × ℚ × List Bool × EngineState β W O)
  | 0, totLoss, totAcc, s => .ok (totLoss, totAcc, [], s)
  | n + 1, totLoss, totAcc, s =>
    match fetchValBatch it s with
    | .error e => .error e
    | .ok (b, it', rcv, s₁) =>
      match fwd s₁.weights b with
      | .error e => .error e
      | .ok (l, a) =>
        match validateLoop fwd it' n (totLoss + l) (totAcc + a) s₁ with
        | .error e => .error e
        | .ok (totL, totA, flags, s₂) => .ok (totL, totA, rcv :: flags, s₂)

/-- The rank-0 tail of `ClassifierEngine.validate` (lines 390-411), after
the averaged loss and accuracy have been computed (running a single
process, the synchronized "global" metrics equal the local ones): if the
loss is strictly below `self.best_validation_loss`, update it, save the
`"BEST"` checkpoint and set `saved_best` to 1; if `checkpointing`, save
the suffix-less latest checkpoint; record the `val_metrics` row in the
validation log.  Ranks other than 0 do none of this. -/
def valBookkeeping {β W O : Type} (loss acc : ℚ) (checkpointing : Bool)
    (s : EngineState β W O) : Except PyErr (EngineState β W O) :=
  if s.rank = 0 then
    match (if loss < s.bestValidationLoss then
             match save_state "BEST" { s with bestValidationLoss := loss } with
             | .error e => .error e
             | .ok (_, t) => .ok (t, (1 : Nat))
           else .ok (s, 0) : Except PyErr (EngineState β W O × Nat)) with
    | .error e => .error e
    | .ok (s₂, savedBest) =>
      match (if checkpointing then
               match save_state "" s₂ with
               | .error e => .error e
               | .ok (_, t) => .ok t
             else .ok s₂ : Except PyErr (EngineState β W O)) with
      | .error e => .error e
      | .ok s₃ =>
        .ok { s₃ with valLog := s₃.valLog ++ [⟨s₃.iteration, loss, acc, savedBest, s₃.epoch⟩] }
  else .ok s

/-- `ClassifierEngine.validate` (lines 343-411): iterate over
`num_val_batches` validation batches accumulating loss and accuracy,
divide both sums by `num_val_batches` (a `ZeroDivisionError` when it is
0), then do the rank-0 bookkeeping.  One `Event.valCall` records the
call and its fetch-recovery flags. -/
def validate {β W O : Type} (fwd : W → β → Except PyErr (ℚ × ℚ)) (it : Nat)
    (num_val_batches : Nat) (checkpointing : Bool) (s : EngineState β W O) :
    Except PyErr (EngineState β W O) :=
  match validateLoop fwd it num_val_batches 0 0 s with
  | .error e => .error e
  | .ok (totLoss, totAcc, flags, s₁) =>
    if num_val_batches = 0 then .error .zeroDiv
    else
      valBookkeeping (totLoss / (num_val_batches : ℚ)) (totAcc / (num_val_batches : ℚ))
        checkpointing
        { s₁ with events := s₁.events ++
            [Event.valCall (flags.head?.getD false) (flags.contains true)] }

/-- The body of `for self.step, train_data in enumerate(train_loader)` in
`ClassifierEngine.train` (lines 296-331): run `validate` first when the
iteration counter is divisible by `val_interval` (a `ZeroDivisionError`
when `val_interval` is 0), then run the forward pass on the training
batch, the backward pass / optimizer step (`tStep` is the weight update
it performs), advance the step and iteration counters and append the
row of train metrics to the training log. -/
def trainBatchStep {β W O : Type} (fwd : W → β → Except PyErr (ℚ × ℚ))
    (tStep : W → β → W) (valIt val_interval num_val_batches : Nat)
    (checkpointing : Bool) (b : β) (s : EngineState β W O) :
    Except PyErr (EngineState β W O) :=
  if val_interval = 0 then .error .zeroDiv
  else
    match (if s.iteration % val_interval = 0
           then validate fwd valIt num_val_batches checkpointing s
           else .ok s) with
    | .error e => .error e
    | .ok s₁ =>
      match fwd s₁.weights b with
      | .error e => .error e
      | .ok (l, a) =>
        .ok { s₁ with
          weights := tStep s₁.weights b,
          step := s₁.step + 1,
          iteration := s₁.iteration + 1,
          trainLog := s₁.trainLog ++ [⟨s₁.iteration + 1, s₁.epoch, l, a⟩],
          events := s₁.events ++ [Event.batchTrained (s₁.iteration + 1)] }

/-- The batch loop of one epoch of `ClassifierEngine.train`. -/
def trainEpochBatches {β W O : Type} (fwd : W → β → Except PyErr (ℚ × ℚ))
    (tStep : W → β → W) (valIt val_interval num_val_batches : Nat)
    (checkpointing : Bool) :
    List β → EngineState β W O → Except PyErr (EngineState β W O)
  | [], s => .ok s
  | b :: bs, s =>
    match trainBatchStep fwd tStep valIt val_interval num_val_batches checkpointing b s with
    | .error e => .error e
    | .ok s₁ => trainEpochBatches fwd tStep valIt val_interval num_val_batches checkpointing bs s₁

/-- The end-of-epoch periodic save of `ClassifierEngine.train` (lines
336-337): when a `save_interval` is configured (a `ZeroDivisionError`
when it is 0) and `(self.epoch + 1) % save_interval == 0`, save a
checkpoint with suffix `"_epoch_{self.epoch + 1}"`. -/
def epochEndSave {β W O : Type} (save_interval : Option Nat)
    (s : EngineState β W O) : Except PyErr (EngineState β W O) :=
  match save_interval with
  | none => .ok s
  | some si =>
    if si = 0 then .error .zeroDiv
    else if (s.epoch + 1) % si = 0 then
      match save_state ("_epoch_" ++ toString (s.epoch + 1)) s with
      | .error e => .error e
      | .ok (_, t) => .ok t
    else .ok s

/-- The `for self.epoch in range(epochs)` loop of `ClassifierEngine.train`
(lines 280-337): per epoch, reset the step counter, run the batch loop
over the training loader and then the periodic end-of-epoch save.  (The
scheduler step is an external call with no engine-visible effect and is
not modelled.) -/
def trainEpochs {β W O : Type} (fwd : W → β → Except PyErr (ℚ × ℚ))
    (tStep : W → β → W) (valIt val_interval num_val_batches : Nat)
    (checkpointing : Bool) (save_interval : Option Nat) (trainLoader : List β) :
    Nat → Nat → EngineState β W O → Except PyErr (EngineState β W O)
  | 0, _, s => .ok s
  | n + 1, e, s =>
    match trainEpochBatches fwd tStep valIt val_interval num_val_batches checkpointing
        trainLoader { s with epoch := e, step := 0 } with
    | .error er => .error er
    | .ok s₁ =>
      match epochEndSave save_interval s₁ with
      | .error er => .error er
      | .ok s₂ =>
        trainEpochs fwd tStep valIt val_interval num_val_batches checkpointing
          save_interval trainLoader n (e + 1) s₂

/-- `ClassifierEngine.train` (lines 245-341): reset the epoch, iteration
and step counters and the best validation loss (to `1.0e10`), create the
iterator over the validation loader once, before the epoch loop, and run
the epochs; every `validate` call receives this same iterator. -/
def train {β W O : Type} (fwd : W → β → Except PyErr (ℚ × ℚ)) (tStep : W → β → W)
    (epochs val_interval num_val_batches : Nat) (checkpointing : Bool)
    (save_interval : Option Nat) (trainLoader : List β) (s : EngineState β W O) :
    Except PyErr (EngineState β W O) :=
  match newIter { s with epoch := 0, iteration := 0, step := 0,
                         bestValidationLoss := (1e10 : ℚ) } with
  | (valIt, s₁) =>
    trainEpochs fwd tStep valIt val_interval num_val_batches checkpointing
      save_interval trainLoader epochs 0 s₁

/-- `torch.eye(4)[[i]]` flattened to one row: the one-hot target row for
class `i` among `n` classes. -/
def oneHot (n i : Nat) : List ℚ :=
  (List.range n).map (fun j => if j = i then 1 else 0)

/-- Elementwise sum of two rows. -/
def addRows (a b : List ℚ) : List ℚ :=
  List.zipWith (fun x y => x + y) a b

/-- `attribution.sum(0)`: sum a (rectangular, non-empty) stack of rows
along the first axis. -/
def sumRows : List (List ℚ) → List ℚ
  | [] => []
  | [r] => r
  | r :: r' :: rs => addRows r (sumRows (r' :: rs))

/-- The `for i in range(4)` loop of `ClassifierEngine.epsilonAlpha2Beta1`
(lines 106-120).  A batch of data is a list of inputs, each input a list
of its elements (pixels/voxels), flattened.  `attributor data target`
stands for one use of the zennit `Gradient` context manager
(`with Gradient(model=model, composite=composite) as attributor:`),
returning the model output and the attribution (of the same shape as
`data`).  Per class `i`: the target is `torch.eye(4)[[i]]` tiled to one
one-hot row per input of the batch, the relevance is `attribution.sum(0)`
(the batch axis summed away), and the loop extends `total_output` with
the output rows and `total_relevance` with the entries of the summed
relevance.  The third component traces the target class of each
attributor invocation, in order. -/
def a2b1Loop (attributor : List (List ℚ) → List (List ℚ) → List (List ℚ) × List (List ℚ))
    (data : List (List ℚ)) : List Nat → List (List ℚ) × List ℚ × List Nat
  | [] => ([], [], [])
  | i :: is =>
    match attributor data (List.replicate data.length (oneHot 4 i)) with
    | (output, attribution) =>
      match a2b1Loop attributor data is with
      | (outs, rels, trace) =>
        (output ++ outs, sumRows attribution ++ rels, i :: trace)

/-- `ClassifierEngine.epsilonAlpha2Beta1` (lines 96-122): iterate the
attribution over the class labels `range(4)` and return
`(np.array(total_output), np.array(total_relevance))`, together with the
trace of target classes passed to the attributor. -/
def epsilonAlpha2Beta1
    (attributor : List (List ℚ) → List (List ℚ) → List (List ℚ) × List (List ℚ))
    (data : List (List ℚ)) : (List (List ℚ) × List ℚ) × List Nat :=
  match a2b1Loop attributor data (List.range 4) with
  | (outs, rels, trace) => ((outs, rels), trace)

/-- The `for i in range(4)` loop of `ClassifierEngine.epsilonPlusFlat`
(lines 134-146): identical to `a2b1Loop` except that the target
`torch.eye(4)[[i]]` is not tiled over the batch (a single one-hot row,
broadcast by the framework). -/
def pfLoop (attributor : List (List ℚ) → List (List ℚ) → List (List ℚ) × List (List ℚ))
    (data : List (List ℚ)) : List Nat → List (List ℚ) × List ℚ × List Nat
  | [] => ([], [], [])
  | i :: is =>
    match attributor data [oneHot 4 i] with
    | (output, attribution) =>
      match pfLoop attributor data is with
      | (outs, rels, trace) =>
        (output ++ outs, sumRows attribution ++ rels, i :: trace)

/-- `ClassifierEngine.epsilonPlusFlat` (lines 124-148). -/
def epsilonPlusFlat
    (attributor : List (List ℚ) → List (List ℚ) → List (List ℚ) × List (List ℚ))
    (data : List (List ℚ)) : (List (List ℚ) × List ℚ) × List Nat :=
  match pfLoop attributor data (List.range 4) with
  | (outs, rels, trace) => ((outs, rels), trace)

/-- One batch yielded by the test data loader in `evaluate`. -/
structure EvalBatch where
  data : List (List ℚ)
  labels : List Nat
  indices : List Nat
deriving DecidableEq

/-- `lrp_output[eval_iterations].extend(lrp_output)` (line 460) after the
rebinding `lrp_output, attribution = self.epsilonAlpha2Beta1(...)` (line
459): `lrp_output` now holds the ndarray `np.array(total_output)`, so
indexing it yields an ndarray row (an `IndexError` when the array is
empty) on which `.extend` is not defined (an `AttributeError`). -/
def ndarrayRowExtend (a : List (List ℚ)) (idx : Nat) : Except PyErr Unit :=
  match a.get? idx with
  | none => .error .indexError
  | some _ => .error .attrError

/-- The `for i in range(4)` loop in the body of `evaluate` (lines
453-461): each pass rebinds `lrp_output` to the first component of
`self.epsilonAlpha2Beta1(current_model, data)` and then runs
`lrp_output[eval_iterations].extend(lrp_output)`.  Returns the trace of
attributor target classes reached, and the error, if one is raised. -/
def evalAttrLoop
    (attributor : List (List ℚ) → List (List ℚ) → List (List ℚ) × List (List ℚ))
    (data : List (List ℚ)) (eval_iterations : Nat) :
    List Nat → List Nat × Option PyErr
  | [] => ([], none)
  | _ :: is =>
    match epsilonAlpha2Beta1 attributor data with
    | ((outs, _), trace) =>
      match ndarrayRowExtend outs eval_iterations with
      | .error e => (trace, some e)
      | .ok _ =>
        match evalAttrLoop attributor data eval_iterations is with
        | (trace', e') => (trace ++ trace', e')

/-- The `for it, eval_data in enumerate(self.data_loaders["test"])` loop
of `ClassifierEngine.evaluate` (lines 437-474): per batch, run the
forward pass (`fwd` yields the loss and accuracy of
`self.forward(train=False)`, or raises), then the attribution loop.
Accumulates the loss and accuracy sums, the number of completed
iterations, and the trace of attributor invocations as pairs
`(batch index, target class)`; stops at the first raised error. -/
def evaluateBatches
    (attributor : List (List ℚ) → List (List ℚ) → List (List ℚ) × List (List ℚ))
    (fwd : EvalBatch → Except PyErr (ℚ × ℚ)) :
    List EvalBatch → Nat → ℚ → ℚ → List (Nat × Nat) →
    List (Nat × Nat) × Option PyErr × Nat × ℚ × ℚ
  | [], it, totLoss, totAcc, trace => (trace, none, it, totLoss, totAcc)
  | eb :: rest, it, totLoss, totAcc, trace =>
    match fwd eb with
    | .error e => (trace, some e, it, totLoss, totAcc)
    | .ok (l, a) =>
      match evalAttrLoop attributor eb.data it (List.range 4) with
      | (trace₁, some e) => (trace ++ trace₁.map (fun c => (it, c)), some e, it, totLoss, totAcc)
      | (trace₁, none) =>
        evaluateBatches attributor fwd rest (it + 1) (totLoss + l) (totAcc + a)
          (trace ++ trace₁.map (fun c => (it, c)))

/-- Outcome of a run of `evaluate`: the raised error if any, the trace of
attributor invocations `(batch index, target class)`, and the array
files saved at the end. -/
structure EvalRun where
  err : Option PyErr
  gradTargets : List (Nat × Nat)
  savedFiles : List String
deriving DecidableEq

/-- `ClassifierEngine.evaluate` (lines 413-529): iterate over the test
loader; afterwards the summary print divides by `eval_iterations` (a
`ZeroDivisionError` when the test set was empty) and rank 0 saves the
six result arrays as `indices.npy`, `labels.npy`, `predictions.npy`,
`softmax.npy`, `lrp_output.npy` and `relevance.npy` under the dump
path. -/
def evaluate {β W O : Type}
    (attributor : List (List ℚ) → List (List ℚ) → List (List ℚ) × List (List ℚ))
    (fwd : EvalBatch → Except PyErr (ℚ × ℚ)) (testLoader : List EvalBatch)
    (s : EngineState β W O) : EvalRun :=
  match evaluateBatches attributor fwd testLoader 0 0 0 [] with
  | (trace, some e, _, _, _) => ⟨some e, trace, []⟩
  | (trace, none, its, _, _) =>
    if its = 0 then ⟨some .zeroDiv, trace, []⟩
    else if s.rank = 0 then
      ⟨none, trace,
        [s.dirpath ++ "indices.npy", s.dirpath ++ "labels.npy",
         s.dirpath ++ "predictions.npy", s.dirpath ++ "softmax.npy",
         s.dirpath ++ "lrp_output.npy", s.dirpath ++ "relevance.npy"]⟩
    else ⟨none, trace, []⟩

/-! ### Specification-side predicates -/

/-- The validation-log entries `es` of one training run form a correct
running-minimum chain starting from best-so-far `b`: each entry has
`saved_best = 1` exactly when its loss is strictly below the best value
so far, and the best value is updated to the minimum. -/
def goodChain (b : ℚ) : List ValEntry → Prop
  | [] => True
  | e :: es => (e.saved_best = 1 ↔ e.loss < b) ∧ goodChain (min b e.loss) es

/-- Whether an event marks the completion of a `validate` call. -/
def evIsCall : Event → Bool
  | .valCall _ _ => true
  | _ => false

/-- Whether the event is a `validate` call whose first batch fetch ran
the `StopIteration` recovery handler. -/
def evFirstRec : Event → Bool
  | .valCall r _ => r
  | _ => false

/-- Whether the event is a `validate` call in which some batch fetch ran
the `StopIteration` recovery handler (the validation iterator was
exhausted at or before this call). -/
def evTrigger : Event → Bool
  | .valCall _ a => a
  | _ => false

/-- Every `validate` call in `es` recovered on its very first fetch. -/
def allCallsRecovered (es : List Event) : Bool :=
  es.all (fun e => !evIsCall e || evFirstRec e)

/-- After the first event whose `validate` call saw an exhausted
iterator, every later `validate` call recovers on its first batch
fetch. -/
def postExhaustRecovery : List Event → Bool
  | [] => true
  | e :: rest => if evTrigger e then allCallsRecovered rest else postExhaustRecovery rest

/-- Whether some event of the trace is a `validate` call that saw an
exhausted iterator. -/
def hasTrigger (es : List Event) : Bool :=
  es.any evTrigger

/-- Relation between the engine state at the start of (part of) a
training run and a later state: the configuration fields are unchanged,
the validation log has only grown, and the best-validation-loss
bookkeeping is correct over the new entries: each one has
`saved_best = 1` exactly when its loss strictly improves on the best
loss so far, and the final best value is the running minimum. -/
def RunInv {β W O : Type} (s s' : EngineState β W O) : Prop :=
  s'.rank = s.rank ∧ s'.dirpath = s.dirpath ∧ s'.modelName = s.modelName ∧
  s'.valLoader = s.valLoader ∧
  (∃ Δf, s'.files = Δf ++ s.files) ∧
  (∃ Δe, s'.events = s.events ++ Δe) ∧
  ∃ Δ, s'.valLog = s.valLog ++ Δ ∧
    s'.bestValidationLoss =
      List.foldl min s.bestValidationLoss (Δ.map ValEntry.loss) ∧
    goodChain s.bestValidationLoss Δ

/-- The frame invariant for the claim that once `train`'s validation
iterator `i` is first exhausted, every later `validate` call recovers on
its first fetch: the recorded trace satisfies `postExhaustRecovery`, a
trigger in the trace means iterator `i` is (and stays) empty, and `i` is
a valid heap index. -/
def C10Inv {β W O : Type} (i : Nat) (s : EngineState β W O) : Prop :=
  postExhaustRecovery s.events = true ∧
  (hasTrigger s.events = true → heapGet s.heap i = some []) ∧
  i < s.heap.length

/-- The fields of the engine state that batch fetching and the
validation loop never touch (everything except the iterator heap, whose
length can only grow). -/
def SameCore {β W O : Type} (s s' : EngineState β W O) : Prop :=
  s'.dirpath = s.dirpath ∧ s'.modelName = s.modelName ∧ s'.rank = s.rank ∧
  s'.weights = s.weights ∧ s'.optimizer = s.optimizer ∧
  s'.iteration = s.iteration ∧ s'.epoch = s.epoch ∧ s'.step = s.step ∧
  s'.bestValidationLoss = s.bestValidationLoss ∧ s'.valLoader = s.valLoader ∧
  s'.files = s.files ∧ s'.valLog = s.valLog ∧ s'.trainLog = s.trainLog ∧
  s'.events = s.events ∧ s.heap.length ≤ s'.heap.length

/-! ### Concrete inputs used by witnesses and counterexamples -/

/-- A small concrete engine state (batches, weights and optimizer states
are coded as naturals). -/
def exState : EngineState Nat Nat Nat :=
  { dirpath := "dump/", modelName := "Net", rank := 0, weights := 7,
    optimizer := some 5, iteration := 3, epoch := 0, step := 0,
    bestValidationLoss := (1e10 : ℚ), heap := [], valLoader := [11, 12],
    files := [], valLog := [], trainLog := [], events := [] }

/-- A concrete state whose validation loader is empty and whose iterator
0 is exhausted. -/
def exStateEmptyLoader : EngineState Nat Nat Nat :=
  { exState with valLoader := [], heap := [[]] }

/-- A forward pass returning loss 1 and accuracy 1 on every batch. -/
def fwdOne : Nat → Nat → Except PyErr (ℚ × ℚ) := fun _ _ => .ok (1, 1)

/-- A forward pass returning a loss of `2.0e10` (above the `1.0e10`
sentinel) on every batch. -/
def fwdBig : Nat → Nat → Except PyErr (ℚ × ℚ) := fun _ _ => .ok ((2e10 : ℚ), 1)

/-- A forward pass that raises on every batch (a device error, say). -/
def fwdRaise : Nat → Nat → Except PyErr (ℚ × ℚ) := fun _ _ => .error .fwdError

/-- A concrete zennit attributor stub: the model output of each input is
its first element as every class score, the attribution of each input is
the input itself. -/
def exAttributor : List (List ℚ) → List (List ℚ) → List (List ℚ) × List (List ℚ) :=
  fun data _ => (data.map (fun r => List.replicate 4 (r.headD 0)), data)

/-- A concrete forward pass for `evaluate` batches. -/
def exEvalFwd : EvalBatch → Except PyErr (ℚ × ℚ) := fun _ => .ok (1, 1)

/-- A one-batch test loader (two events of one element each). -/
def exTestLoader1 : List EvalBatch :=
  [⟨[[1], [2]], [0, 1], [0, 1]⟩]

/-- A two-batch test loader. -/
def exTestLoader2 : List EvalBatch :=
  [⟨[[1], [2]], [0, 1], [0, 1]⟩, ⟨[[3], [4]], [2, 3], [2, 3]⟩]

/-- A concrete state whose validation loader has a single batch, so that
a validate call with two batches exhausts the iterator mid-call. -/
def exStateShortLoader : EngineState Nat Nat Nat :=
  { exState with valLoader := [11] }

/-- A concrete state with one live validation iterator (index 0). -/
def exStateIter : EngineState Nat Nat Nat :=
  { exState with heap := [[11, 12]] }

/-- Observable of a run outcome: the validation log of the final state. -/
def okValLog {β W O : Type} : Except PyErr (EngineState β W O) → Option (List ValEntry)
  | .error _ => none
  | .ok s => some s.valLog

/-- Observable of a run outcome: the checkpoint files of the final state. -/
def okFiles {β W O : Type} :
    Except PyErr (EngineState β W O) → Option (List (String × Checkpoint W O))
  | .error _ => none
  | .ok s => some s.files

/-- Observable of a run outcome: the event trace of the final state. -/
def okEvents {β W O : Type} : Except PyErr (EngineState β W O) → Option (List Event)
  | .error _ => none
  | .ok s => some s.events

/-! ### Theorems -/

/-- C1: Checkpoint round-trip.  For every engine state whose optimizer is
configured, `save_state` succeeds, and `restore_state_from_file` on the
filename it returned succeeds and restores the model weights to the
weights at save time, the iteration counter to its value at save time,
and (the optimizer being not `None`) the optimizer state to its state at
save time. -/
theorem save_restore_roundtrip {β W O : Type} (s : EngineState β W O)
    (name : String) (o : O) (h : s.optimizer = some o) :
    ∃ fn s₁ s₂, save_state name s = .ok (fn, s₁) ∧
      restore_state_from_file fn s₁ = .ok s₂ ∧
      s₂.weights = s.weights ∧ s₂.iteration = s.iteration ∧
      s₂.optimizer = some o := by
  refine ⟨saveFilename s.dirpath s.modelName name,
    { s with files := (saveFilename s.dirpath s.modelName name,
                       ⟨s.iteration, o, s.weights⟩) :: s.files,
             events := s.events ++ [Event.saved (saveFilename s.dirpath s.modelName name)] },
    { s with files := (saveFilename s.dirpath s.modelName name,
                       ⟨s.iteration, o, s.weights⟩) :: s.files,
             events := s.events ++ [Event.saved (saveFilename s.dirpath s.modelName name)] },
    ?_, ?_, rfl, rfl, ?_⟩
  · simp [save_state, h]
  · simp [restore_state_from_file, List.lookup, h]
  · simp [h]

/-- C1 witness: the round-trip at a concrete engine state. -/
theorem save_restore_roundtrip_witness :
    exState.optimizer = some 5 ∧
    ∃ fn s₁ s₂, save_state "BEST" exState = .ok (fn, s₁) ∧
      restore_state_from_file fn s₁ = .ok s₂ ∧
      s₂.weights = exState.weights ∧ s₂.iteration = exState.iteration ∧
      s₂.optimizer = some 5 :=
  ⟨rfl, save_restore_roundtrip exState "BEST" 5 rfl⟩

/-! ### Iterator-heap lemmas -/

theorem heapGet_lt_length {β : Type} (h : List (List β)) (i : Nat) (l : List β)
    (hg : heapGet h i = some l) : i < h.length := by
  induction h generalizing i with
  | nil => simp [heapGet] at hg
  | cons x xs ih =>
    cases i with
    | zero => simp
    | succ n =>
      simp only [heapGet] at hg
      have := ih n hg
      simp only [List.length_cons]
      omega

theorem heapGet_of_lt {β : Type} (h : List (List β)) (i : Nat)
    (hi : i < h.length) : ∃ l, heapGet h i = some l := by
  induction h generalizing i with
  | nil => simp at hi
  | cons x xs ih =>
    cases i with
    | zero => exact ⟨x, rfl⟩
    | succ n => exact ih n (by simpa using hi)

theorem length_heapSet {β : Type} (h : List (List β)) (i : Nat) (v : List β) :
    (heapSet h i v).length = h.length := by
  induction h generalizing i with
  | nil => rfl
  | cons x xs ih =>
    cases i with
    | zero => rfl
    | succ n => simp only [heapSet, List.length_cons, ih]

theorem heapGet_heapSet_ne {β : Type} (h : List (List β)) (i j : Nat) (v : List β)
    (hne : i ≠ j) : heapGet (heapSet h i v) j = heapGet h j := by
  induction h generalizing i j with
  | nil => rfl
  | cons x xs ih =>
    cases i with
    | zero =>
      cases j with
      | zero => exact absurd rfl hne
      | succ m => rfl
    | succ n =>
      cases j with
      | zero => rfl
      | succ m => exact ih n m (by omega)

theorem heapGet_heapSet_self {β : Type} (h : List (List β)) (i : Nat) (v : List β)
    (hi : i < h.length) : heapGet (heapSet h i v) i = some v := by
  induction h generalizing i with
  | nil => simp at hi
  | cons x xs ih =>
    cases i with
    | zero => rfl
    | succ n => exact ih n (by simpa using hi)

theorem heapGet_append_lt {β : Type} (h t : List (List β)) (i : Nat)
    (hi : i < h.length) : heapGet (h ++ t) i = heapGet h i := by
  induction h generalizing i with
  | nil => simp at hi
  | cons x xs ih =>
    cases i with
    | zero => rfl
    | succ n => exact ih n (by simpa using hi)

theorem heapGet_append_self {β : Type} (h : List (List β)) (x : List β) :
    heapGet (h ++ [x]) h.length = some x := by
  induction h with
  | nil => rfl
  | cons y ys ih => simpa using ih

theorem heapSet_append_self {β : Type} (h : List (List β)) (x w : List β) :
    heapSet (h ++ [x]) h.length w = h ++ [w] := by
  induction h with
  | nil => rfl
  | cons y ys ih => simp only [List.cons_append, heapSet, List.length_cons, List.append_eq, ih]

/-! ### Batch-fetch lemmas -/

theorem heapNext_some {β W O : Type} {it : Nat} {s : EngineState β W O}
    {b : β} {s' : EngineState β W O} (h : heapNext it s = some (b, s')) :
    ∃ rest, heapGet s.heap it = some (b :: rest) ∧
      s' = { s with heap := heapSet s.heap it rest } := by
  unfold heapNext at h
  cases hg : heapGet s.heap it with
  | none => rw [hg] at h; exact absurd h (by simp)
  | some l =>
    cases l with
    | nil => rw [hg] at h; exact absurd h (by simp)
    | cons x rest =>
      rw [hg] at h
      simp only [Option.some.injEq, Prod.mk.injEq] at h
      obtain ⟨hb, hs⟩ := h
      subst hb
      exact ⟨rest, rfl, hs.symm⟩

theorem heapNext_none_iff {β W O : Type} (it : Nat) (s : EngineState β W O) :
    heapNext it s = none ↔
      (heapGet s.heap it = none ∨ heapGet s.heap it = some []) := by
  unfold heapNext
  cases hg : heapGet s.heap it with
  | none => simp
  | some l => cases l with
    | nil => simp
    | cons x rest => simp

theorem fetch_frame {β W O : Type} {it : Nat} {s : EngineState β W O}
    {b : β} {it' : Nat} {rcv : Bool} {s' : EngineState β W O}
    (h : fetchValBatch it s = .ok (b, it', rcv, s')) :
    SameCore s s' := by
  unfold SameCore
  unfold fetchValBatch at h
  cases hn : heapNext it s with
  | some p =>
    obtain ⟨b₁, s₁⟩ := p
    rw [hn] at h
    simp only [Except.ok.injEq, Prod.mk.injEq] at h
    obtain ⟨rest, hg, hs⟩ := heapNext_some hn
    obtain ⟨hb, hit, hrcv, hs'⟩ := h
    subst hs'
    subst hs
    refine ⟨rfl, rfl, rfl, rfl, rfl, rfl, rfl, rfl, rfl, rfl, rfl, rfl, rfl, rfl, ?_⟩
    exact Nat.le_of_eq (length_heapSet _ _ _).symm
  | none =>
    rw [hn] at h
    simp only [newIter] at h
    cases hn2 : heapNext s.heap.length { s with heap := s.heap ++ [s.valLoader] } with
    | none => rw [hn2] at h; exact absurd h (by simp)
    | some q =>
      obtain ⟨b₂, s₂⟩ := q
      rw [hn2] at h
      simp only [Except.ok.injEq, Prod.mk.injEq] at h
      obtain ⟨rest, hg, hs⟩ := heapNext_some hn2
      obtain ⟨hb, hit, hrcv, hs'⟩ := h
      subst hs'
      subst hs
      refine ⟨rfl, rfl, rfl, rfl, rfl, rfl, rfl, rfl, rfl, rfl, rfl, rfl, rfl, rfl, ?_⟩
      have h1 : (heapSet ({ s with heap := s.heap ++ [s.valLoader] } : EngineState β W O).heap
          s.heap.length rest).length = s.heap.length + 1 := by
        rw [length_heapSet]
        simp
      simp only [h1]
      omega

theorem sameCore_refl {β W O : Type} (s : EngineState β W O) : SameCore s s :=
  ⟨rfl, rfl, rfl, rfl, rfl, rfl, rfl, rfl, rfl, rfl, rfl, rfl, rfl, rfl, Nat.le_refl _⟩

theorem sameCore_trans {β W O : Type} {s s₁ s₂ : EngineState β W O}
    (h : SameCore s s₁) (h' : SameCore s₁ s₂) : SameCore s s₂ := by
  obtain ⟨a1, a2, a3, a4, a5, a6, a7, a8, a9, a10, a11, a12, a13, a14, a15⟩ := h
  obtain ⟨b1, b2, b3, b4, b5, b6, b7, b8, b9, b10, b11, b12, b13, b14, b15⟩ := h'
  exact ⟨b1.trans a1, b2.trans a2, b3.trans a3, b4.trans a4, b5.trans a5,
    b6.trans a6, b7.trans a7, b8.trans a8, b9.trans a9, b10.trans a10,
    b11.trans a11, b12.trans a12, b13.trans a13, b14.trans a14,
    Nat.le_trans a15 b15⟩

theorem fetch_recover {β W O : Type} {it : Nat} {s : EngineState β W O}
    {b : β} {bs : List β} (hn : heapNext it s = none)
    (hl : s.valLoader = b :: bs) :
    fetchValBatch it s = .ok (b, s.heap.length, true,
      { s with heap := s.heap ++ [bs] }) := by
  unfold fetchValBatch
  rw [hn]
  simp only [newIter]
  have hn2 : heapNext s.heap.length { s with heap := s.heap ++ [s.valLoader] }
      = some (b, { s with heap := s.heap ++ [bs] }) := by
    unfold heapNext
    have hg : heapGet (s.heap ++ [s.valLoader]) s.heap.length = some (b :: bs) := by
      rw [hl] at *
      exact heapGet_append_self s.heap (b :: bs)
    simp only [hg]
    rw [hl]
    rw [heapSet_append_self]
  rw [hn2]

theorem fetch_error {β W O : Type} {it : Nat} {s : EngineState β W O}
    {e : PyErr} (h : fetchValBatch it s = .error e) :
    e = .stopIteration ∧ heapNext it s = none ∧ s.valLoader = [] := by
  unfold fetchValBatch at h
  cases hn : heapNext it s with
  | some p => rw [hn] at h; exact absurd h (by simp)
  | none =>
    rw [hn] at h
    simp only [newIter] at h
    cases hn2 : heapNext s.heap.length { s with heap := s.heap ++ [s.valLoader] } with
    | some q => rw [hn2] at h; exact absurd h (by simp)
    | none =>
      rw [hn2] at h
      simp only [Except.error.injEq] at h
      rw [heapNext_none_iff] at hn2
      refine ⟨h.symm, rfl, ?_⟩
      rcases hn2 with h2 | h2
      · exact absurd (heapGet_append_self s.heap s.valLoader) (by rw [h2]; simp)
      · have := heapGet_append_self s.heap s.valLoader
        rw [h2] at this
        simpa using this.symm

theorem fetch_preserve_empty {β W O : Type} {it i : Nat} {s : EngineState β W O}
    {b : β} {it' : Nat} {rcv : Bool} {s' : EngineState β W O}
    (hi : heapGet s.heap i = some [])
    (h : fetchValBatch it s = .ok (b, it', rcv, s')) :
    heapGet s'.heap i = some [] := by
  have hilt : i < s.heap.length := heapGet_lt_length _ _ _ hi
  unfold fetchValBatch at h
  cases hn : heapNext it s with
  | some p =>
    obtain ⟨b₁, s₁⟩ := p
    rw [hn] at h
    simp only [Except.ok.injEq, Prod.mk.injEq] at h
    obtain ⟨rest, hg, hs⟩ := heapNext_some hn
    obtain ⟨hb, hit, hrcv, hs'⟩ := h
    subst hs'
    subst hs
    have hne : it ≠ i := by
      intro he
      rw [he, hi] at hg
      simp at hg
    simpa using (heapGet_heapSet_ne s.heap it i rest hne).trans hi
  | none =>
    rw [hn] at h
    simp only [newIter] at h
    cases hn2 : heapNext s.heap.length { s with heap := s.heap ++ [s.valLoader] } with
    | none => rw [hn2] at h; exact absurd h (by simp)
    | some q =>
      obtain ⟨b₂, s₂⟩ := q
      rw [hn2] at h
      simp only [Except.ok.injEq, Prod.mk.injEq] at h
      obtain ⟨rest, hg, hs⟩ := heapNext_some hn2
      obtain ⟨hb, hit, hrcv, hs'⟩ := h
      subst hs'
      subst hs
      have hne : s.heap.length ≠ i := by omega
      have step1 : heapGet (s.heap ++ [s.valLoader]) i = some [] := by
        rw [heapGet_append_lt s.heap [s.valLoader] i hilt]
        exact hi
      simpa using (heapGet_heapSet_ne _ s.heap.length i rest hne).trans step1

theorem fetch_rcv_of_empty {β W O : Type} {it : Nat} {s : EngineState β W O}
    {b : β} {it' : Nat} {rcv : Bool} {s' : EngineState β W O}
    (hi : heapGet s.heap it = some [])
    (h : fetchValBatch it s = .ok (b, it', rcv, s')) : rcv = true := by
  have hn : heapNext it s = none := by
    rw [heapNext_none_iff]
    exact Or.inr hi
  unfold fetchValBatch at h
  rw [hn] at h
  simp only [newIter] at h
  cases hn2 : heapNext s.heap.length { s with heap := s.heap ++ [s.valLoader] } with
  | none => rw [hn2] at h; exact absurd h (by simp)
  | some q =>
    obtain ⟨b₂, s₂⟩ := q
    rw [hn2] at h
    simp only [Except.ok.injEq, Prod.mk.injEq] at h
    exact h.2.2.1.symm

theorem fetch_no_recover {β W O : Type} {it : Nat} {s : EngineState β W O}
    {b : β} {it' : Nat} {s' : EngineState β W O}
    (h : fetchValBatch it s = .ok (b, it', false, s')) :
    heapNext it s = some (b, s') ∧ it' = it := by
  unfold fetchValBatch at h
  cases hn : heapNext it s with
  | some p =>
    obtain ⟨b₁, s₁⟩ := p
    rw [hn] at h
    simp only [Except.ok.injEq, Prod.mk.injEq] at h
    obtain ⟨hb, hit, _, hs'⟩ := h
    subst hb; subst hs'
    exact ⟨rfl, hit.symm⟩
  | none =>
    rw [hn] at h
    simp only [newIter] at h
    cases hn2 : heapNext s.heap.length { s with heap := s.heap ++ [s.valLoader] } with
    | none => rw [hn2] at h; exact absurd h (by simp)
    | some q =>
      obtain ⟨b₂, s₂⟩ := q
      rw [hn2] at h
      simp only [Except.ok.injEq, Prod.mk.injEq] at h
      exact absurd h.2.2.1 (by simp)

/-! ### Validation-loop lemmas -/

theorem validateLoop_frame {β W O : Type} (fwd : W → β → Except PyErr (ℚ × ℚ))
    {it n : Nat} {tL tA : ℚ} {s : EngineState β W O}
    {L A : ℚ} {flags : List Bool} {s' : EngineState β W O}
    (h : validateLoop fwd it n tL tA s = .ok (L, A, flags, s')) :
    SameCore s s' ∧ flags.length = n := by
  induction n generalizing it tL tA s flags L A s' with
  | zero =>
    simp only [validateLoop, Except.ok.injEq, Prod.mk.injEq] at h
    obtain ⟨h1, h2, h3, h4⟩ := h
    subst h4; subst h3
    exact ⟨sameCore_refl s, rfl⟩
  | succ n ih =>
    simp only [validateLoop] at h
    cases hf : fetchValBatch it s with
    | error e => rw [hf] at h; exact absurd h (by simp)
    | ok q =>
      obtain ⟨b, it', rcv, s₁⟩ := q
      rw [hf] at h
      simp only at h
      cases hw : fwd s₁.weights b with
      | error e => rw [hw] at h; exact absurd h (by simp)
      | ok p =>
        obtain ⟨l, a⟩ := p
        rw [hw] at h
        simp only at h
        cases hr : validateLoop fwd it' n (tL + l) (tA + a) s₁ with
        | error e => rw [hr] at h; exact absurd h (by simp)
        | ok r =>
          obtain ⟨L₂, A₂, flags₂, s₂⟩ := r
          rw [hr] at h
          simp only [Except.ok.injEq, Prod.mk.injEq] at h
          obtain ⟨h1, h2, h3, h4⟩ := h
          subst h4; subst h3
          obtain ⟨hc, hlen⟩ := ih hr
          exact ⟨sameCore_trans (fetch_frame hf) hc, by simp [hlen]⟩

theorem validateLoop_sum {β W O : Type} (fwd : W → β → Except PyErr (ℚ × ℚ))
    {it n : Nat} {tL tA : ℚ} {s : EngineState β W O}
    {L A : ℚ} {flags : List Bool} {s' : EngineState β W O}
    (h : validateLoop fwd it n tL tA s = .ok (L, A, flags, s')) :
    ∃ bs ps, bs.length = n ∧
      List.Forall₂ (fun (b : β) (p : ℚ × ℚ) => fwd s.weights b = .ok p) bs ps ∧
      L = tL + (ps.map Prod.fst).sum ∧ A = tA + (ps.map Prod.snd).sum := by
  induction n generalizing it tL tA s flags L A s' with
  | zero =>
    simp only [validateLoop, Except.ok.injEq, Prod.mk.injEq] at h
    exact ⟨[], [], rfl, List.Forall₂.nil, by simp [h.1], by simp [h.2.1]⟩
  | succ n ih =>
    simp only [validateLoop] at h
    cases hf : fetchValBatch it s with
    | error e => rw [hf] at h; exact absurd h (by simp)
    | ok q =>
      obtain ⟨b, it', rcv, s₁⟩ := q
      rw [hf] at h
      simp only at h
      cases hw : fwd s₁.weights b with
      | error e => rw [hw] at h; exact absurd h (by simp)
      | ok p =>
        obtain ⟨l, a⟩ := p
        rw [hw] at h
        simp only at h
        cases hr : validateLoop fwd it' n (tL + l) (tA + a) s₁ with
        | error e => rw [hr] at h; exact absurd h (by simp)
        | ok r =>
          obtain ⟨L₂, A₂, flags₂, s₂⟩ := r
          rw [hr] at h
          simp only [Except.ok.injEq, Prod.mk.injEq] at h
          obtain ⟨h1, h2, h3, h4⟩ := h
          obtain ⟨bs, ps, hlen, hall, hL, hA⟩ := ih hr
          have hwk : s₁.weights = s.weights := (fetch_frame hf).2.2.2.1
          refine ⟨b :: bs, (l, a) :: ps, by simp [hlen], ?_, ?_, ?_⟩
          · refine List.Forall₂.cons ?_ ?_
            · rw [← hwk]; exact hw
            · refine hall.imp ?_
              intro x y hxy
              rwa [hwk] at hxy
          · rw [← h1, hL]; simp [List.map_cons, List.sum_cons]; ring
          · rw [← h2, hA]; simp [List.map_cons, List.sum_cons]; ring

theorem validateLoop_preserve_empty {β W O : Type} (fwd : W → β → Except PyErr (ℚ × ℚ))
    {it n i : Nat} {tL tA : ℚ} {s : EngineState β W O}
    {L A : ℚ} {flags : List Bool} {s' : EngineState β W O}
    (hi : heapGet s.heap i = some [])
    (h : validateLoop fwd it n tL tA s = .ok (L, A, flags, s')) :
    heapGet s'.heap i = some [] := by
  induction n generalizing it tL tA s flags L A s' with
  | zero =>
    simp only [validateLoop, Except.ok.injEq, Prod.mk.injEq] at h
    rw [← h.2.2.2]
    exact hi
  | succ n ih =>
    simp only [validateLoop] at h
    cases hf : fetchValBatch it s with
    | error e => rw [hf] at h; exact absurd h (by simp)
    | ok q =>
      obtain ⟨b, it', rcv, s₁⟩ := q
      rw [hf] at h
      simp only at h
      cases hw : fwd s₁.weights b with
      | error e => rw [hw] at h; exact absurd h (by simp)
      | ok p =>
        obtain ⟨l, a⟩ := p
        rw [hw] at h
        simp only at h
        cases hr : validateLoop fwd it' n (tL + l) (tA + a) s₁ with
        | error e => rw [hr] at h; exact absurd h (by simp)
        | ok r =>
          obtain ⟨L₂, A₂, flags₂, s₂⟩ := r
          rw [hr] at h
          simp only [Except.ok.injEq, Prod.mk.injEq] at h
          rw [← h.2.2.2]
          exact ih (fetch_preserve_empty hi hf) hr

theorem validateLoop_first_flag {β W O : Type} (fwd : W → β → Except PyErr (ℚ × ℚ))
    {it n : Nat} {tL tA : ℚ} {s : EngineState β W O}
    {L A : ℚ} {flags : List Bool} {s' : EngineState β W O}
    (hi : heapGet s.heap it = some [])
    (h : validateLoop fwd it (n + 1) tL tA s = .ok (L, A, flags, s')) :
    flags.head? = some true := by
  simp only [validateLoop] at h
  cases hf : fetchValBatch it s with
  | error e => rw [hf] at h; exact absurd h (by simp)
  | ok q =>
    obtain ⟨b, it', rcv, s₁⟩ := q
    rw [hf] at h
    simp only at h
    cases hw : fwd s₁.weights b with
    | error e => rw [hw] at h; exact absurd h (by simp)
    | ok p =>
      obtain ⟨l, a⟩ := p
      rw [hw] at h
      simp only at h
      cases hr : validateLoop fwd it' n (tL + l) (tA + a) s₁ with
      | error e => rw [hr] at h; exact absurd h (by simp)
      | ok r =>
        obtain ⟨L₂, A₂, flags₂, s₂⟩ := r
        rw [hr] at h
        simp only [Except.ok.injEq, Prod.mk.injEq] at h
        rw [← h.2.2.1]
        rw [fetch_rcv_of_empty hi hf]
        rfl

theorem validateLoop_contains_empty {β W O : Type} (fwd : W → β → Except PyErr (ℚ × ℚ))
    {i n : Nat} {tL tA : ℚ} {s : EngineState β W O}
    {L A : ℚ} {flags : List Bool} {s' : EngineState β W O}
    (hlt : i < s.heap.length)
    (h : validateLoop fwd i n tL tA s = .ok (L, A, flags, s'))
    (hc : flags.contains true = true) :
    heapGet s'.heap i = some [] := by
  induction n generalizing tL tA s flags L A s' with
  | zero =>
    simp only [validateLoop, Except.ok.injEq, Prod.mk.injEq] at h
    rw [← h.2.2.1] at hc
    simp [List.contains] at hc
  | succ n ih =>
    simp only [validateLoop] at h
    cases hf : fetchValBatch i s with
    | error e => rw [hf] at h; exact absurd h (by simp)
    | ok q =>
      obtain ⟨b, it', rcv, s₁⟩ := q
      rw [hf] at h
      simp only at h
      cases hw : fwd s₁.weights b with
      | error e => rw [hw] at h; exact absurd h (by simp)
      | ok p =>
        obtain ⟨l, a⟩ := p
        rw [hw] at h
        simp only at h
        cases hr : validateLoop fwd it' n (tL + l) (tA + a) s₁ with
        | error e => rw [hr] at h; exact absurd h (by simp)
        | ok r =>
          obtain ⟨L₂, A₂, flags₂, s₂⟩ := r
          rw [hr] at h
          simp only [Except.ok.injEq, Prod.mk.injEq] at h
          rw [← h.2.2.2]
          cases rcv with
          | true =>
            have hnone : heapNext i s = none := by
              by_contra hne
              cases hn : heapNext i s with
              | none => exact hne hn
              | some p2 =>
                obtain ⟨b₂, s₂'⟩ := p2
                unfold fetchValBatch at hf
                rw [hn] at hf
                simp only [Except.ok.injEq, Prod.mk.injEq] at hf
                exact absurd hf.2.2.1 (by simp)
            have hi : heapGet s.heap i = some [] := by
              rcases (heapNext_none_iff i s).mp hnone with h2 | h2
              · obtain ⟨l₂, hl₂⟩ := heapGet_of_lt s.heap i hlt
                rw [h2] at hl₂
                exact absurd hl₂ (by simp)
              · exact h2
            exact validateLoop_preserve_empty fwd (fetch_preserve_empty hi hf) hr
          | false =>
            obtain ⟨hn, hit⟩ := fetch_no_recover hf
            obtain ⟨rest, hg, hs⟩ := heapNext_some hn
            have hlt₁ : i < s₁.heap.length := by
              rw [hs]
              simpa [length_heapSet] using hlt
            rw [← h.2.2.1] at hc
            have hc₂ : flags₂.contains true = true := by
              simpa [List.contains] using hc
            subst hit
            exact ih hlt₁ hr hc₂


/-! ### Validation bookkeeping lemmas -/

theorem valBookkeeping_rank0_spec {β W O : Type} {L A : ℚ} {c : Bool}
    {s : EngineState β W O} {o : O} (hr : s.rank = 0) (ho : s.optimizer = some o) :
    valBookkeeping L A c s = .ok
      { s with
        bestValidationLoss := if L < s.bestValidationLoss then L else s.bestValidationLoss,
        files :=
          (if c then [(saveFilename s.dirpath s.modelName "",
                       (⟨s.iteration, o, s.weights⟩ : Checkpoint W O))] else []) ++
          (if L < s.bestValidationLoss then
            [(saveFilename s.dirpath s.modelName "BEST",
              (⟨s.iteration, o, s.weights⟩ : Checkpoint W O))] else []) ++ s.files,
        events := s.events ++
          (if L < s.bestValidationLoss then
            [Event.saved (saveFilename s.dirpath s.modelName "BEST")] else []) ++
          (if c then [Event.saved (saveFilename s.dirpath s.modelName "")] else []),
        valLog := s.valLog ++
          [⟨s.iteration, L, A, if L < s.bestValidationLoss then 1 else 0, s.epoch⟩] } := by
  cases c with
  | false =>
    by_cases hL : L < s.bestValidationLoss
    · simp [valBookkeeping, save_state, hr, ho, hL]
    · simp [valBookkeeping, save_state, hr, ho, hL]
  | true =>
    by_cases hL : L < s.bestValidationLoss
    · simp [valBookkeeping, save_state, hr, ho, hL]
    · simp [valBookkeeping, save_state, hr, ho, hL]

theorem valBookkeeping_rank0_nosave {β W O : Type} {L A : ℚ}
    {s : EngineState β W O} (hr : s.rank = 0) (hL : ¬ L < s.bestValidationLoss) :
    valBookkeeping L A false s = .ok
      { s with valLog := s.valLog ++ [⟨s.iteration, L, A, 0, s.epoch⟩] } := by
  simp [valBookkeeping, hr, hL]

theorem valBookkeeping_rank0_none_best_err {β W O : Type} {L A : ℚ} {c : Bool}
    {s : EngineState β W O} (hr : s.rank = 0) (ho : s.optimizer = none)
    (hL : L < s.bestValidationLoss) :
    valBookkeeping L A c s = .error .attrError := by
  simp [valBookkeeping, save_state, hr, ho, hL]

theorem valBookkeeping_rank0_none_ckpt_err {β W O : Type} {L A : ℚ}
    {s : EngineState β W O} (hr : s.rank = 0) (ho : s.optimizer = none)
    (hL : ¬ L < s.bestValidationLoss) :
    valBookkeeping L A true s = .error .attrError := by
  simp [valBookkeeping, save_state, hr, ho, hL]

theorem valBookkeeping_rank_ne {β W O : Type} {L A : ℚ} {c : Bool}
    {s : EngineState β W O} (hr : ¬ s.rank = 0) :
    valBookkeeping L A c s = .ok s := by
  simp [valBookkeeping, hr]

/-! ### Validate lemmas -/

theorem validate_unfold_ok {β W O : Type} {fwd : W → β → Except PyErr (ℚ × ℚ)}
    {it n : Nat} {c : Bool} {s s' : EngineState β W O}
    (h : validate fwd it n c s = .ok s') :
    ∃ m totL totA flags s₁,
      n = m + 1 ∧
      validateLoop fwd it n 0 0 s = .ok (totL, totA, flags, s₁) ∧
      valBookkeeping (totL / (n : ℚ)) (totA / (n : ℚ)) c
        { s₁ with events := s₁.events ++
            [Event.valCall (flags.head?.getD false) (flags.contains true)] } = .ok s' := by
  unfold validate at h
  cases hl : validateLoop fwd it n 0 0 s with
  | error e => rw [hl] at h; exact absurd h (by simp)
  | ok q =>
    obtain ⟨totL, totA, flags, s₁⟩ := q
    rw [hl] at h
    simp only at h
    cases n with
    | zero => simp at h
    | succ m =>
      rw [if_neg (Nat.succ_ne_zero m)] at h
      exact ⟨m, totL, totA, flags, s₁, rfl, rfl, h⟩

theorem validate_rank0 {β W O : Type} {fwd : W → β → Except PyErr (ℚ × ℚ)}
    {it n : Nat} {c : Bool} {s s' : EngineState β W O}
    (hr : s.rank = 0) (h : validate fwd it n c s = .ok s') :
    ∃ L A r a Δs,
      s'.valLog = s.valLog ++
        [⟨s.iteration, L, A, (if L < s.bestValidationLoss then 1 else 0), s.epoch⟩] ∧
      s'.bestValidationLoss =
        (if L < s.bestValidationLoss then L else s.bestValidationLoss) ∧
      s'.rank = s.rank ∧ s'.dirpath = s.dirpath ∧ s'.modelName = s.modelName ∧
      s'.valLoader = s.valLoader ∧ s'.weights = s.weights ∧
      s'.iteration = s.iteration ∧ s'.epoch = s.epoch ∧ s'.step = s.step ∧
      s'.trainLog = s.trainLog ∧ s'.optimizer = s.optimizer ∧
      (∃ Δf, s'.files = Δf ++ s.files) ∧
      s'.events = s.events ++ Event.valCall r a :: Δs ∧
      Δs.all (fun e => !evIsCall e) = true ∧
      (L < s.bestValidationLoss →
        ∃ o, s.optimizer = some o ∧
          (saveFilename s.dirpath s.modelName "BEST",
            (⟨s.iteration, o, s.weights⟩ : Checkpoint W O)) ∈ s'.files) ∧
      (∃ totL totA flags s₁, validateLoop fwd it n 0 0 s = .ok (totL, totA, flags, s₁) ∧
        L = totL / (n : ℚ) ∧ A = totA / (n : ℚ)) := by
  obtain ⟨m, totL, totA, flags, s₁, hn, hl, hb⟩ := validate_unfold_ok h
  obtain ⟨core, hflen⟩ := validateLoop_frame fwd hl
  obtain ⟨c1, c2, c3, c4, c5, c6, c7, c8, c9, c10, c11, c12, c13, c14, c15⟩ := core
  set s₂ : EngineState β W O := { s₁ with events := s₁.events ++
    [Event.valCall (flags.head?.getD false) (flags.contains true)] } with hs₂
  have hr2 : s₂.rank = 0 := by rw [hs₂]; exact c3.trans hr
  have e9 : s₂.bestValidationLoss = s.bestValidationLoss := by rw [hs₂]; exact c9
  refine ⟨totL / (n : ℚ), totA / (n : ℚ), flags.head?.getD false, flags.contains true,
    (if totL / (n : ℚ) < s.bestValidationLoss then
      [Event.saved (saveFilename s.dirpath s.modelName "BEST")] else []) ++
    (if c then [Event.saved (saveFilename s.dirpath s.modelName "")] else []), ?_⟩
  cases ho : s₂.optimizer with
  | some o =>
    rw [valBookkeeping_rank0_spec hr2 ho] at hb
    injection hb with hS
    subst hS
    refine ⟨by simp [hs₂, c6, c7, c9, c12], by simp [hs₂, c9], by simp [hs₂, c3],
      by simp [hs₂, c1], by simp [hs₂, c2], by simp [hs₂, c10], by simp [hs₂, c4],
      by simp [hs₂, c6], by simp [hs₂, c7], by simp [hs₂, c8], by simp [hs₂, c13],
      ?_, ?_, ?_, ?_, ?_, ⟨totL, totA, flags, s₁, hl, rfl, rfl⟩⟩
    · exact c5
    · refine ⟨(if c then [(saveFilename s.dirpath s.modelName "",
          (⟨s.iteration, o, s.weights⟩ : Checkpoint W O))] else []) ++
        (if totL / (n : ℚ) < s.bestValidationLoss then
          [(saveFilename s.dirpath s.modelName "BEST",
            (⟨s.iteration, o, s.weights⟩ : Checkpoint W O))] else []), ?_⟩
      simp [hs₂, c1, c2, c4, c6, c9, c11, List.append_assoc]
    · simp [hs₂, c1, c2, c9, c14, List.append_assoc]
    · by_cases hL : totL / (n : ℚ) < s.bestValidationLoss <;> cases c <;>
        simp [hL, evIsCall]
    · intro hL
      have ho1 : s.optimizer = some o := by
        rw [← c5]
        rw [hs₂] at ho
        exact ho
      refine ⟨o, ho1, ?_⟩
      simp only [List.mem_append]
      refine Or.inl (Or.inr ?_)
      rw [if_pos (e9 ▸ hL)]
      simp [hs₂, c1, c2, c6, c4]
  | none =>
    by_cases hL : totL / (n : ℚ) < s.bestValidationLoss
    · rw [valBookkeeping_rank0_none_best_err hr2 ho (e9 ▸ hL)] at hb
      exact absurd hb (by simp)
    · have hL2 : ¬ totL / (n : ℚ) < s₂.bestValidationLoss := by rw [e9]; exact hL
      cases c with
      | true =>
        rw [valBookkeeping_rank0_none_ckpt_err hr2 ho hL2] at hb
        exact absurd hb (by simp)
      | false =>
        rw [valBookkeeping_rank0_nosave hr2 hL2] at hb
        injection hb with hS
        subst hS
        refine ⟨by simp [hs₂, c6, c7, c12, hL], by simp [hs₂, c9, hL],
          by simp [hs₂, c3], by simp [hs₂, c1], by simp [hs₂, c2],
          by simp [hs₂, c10], by simp [hs₂, c4], by simp [hs₂, c6],
          by simp [hs₂, c7], by simp [hs₂, c8], by simp [hs₂, c13],
          ?_, ?_, ?_, ?_, ?_, ⟨totL, totA, flags, s₁, hl, rfl, rfl⟩⟩
        · exact c5
        · exact ⟨[], by simp [hs₂, c11]⟩
        · simp [hs₂, c14, hL]
        · simp [hL]
        · intro hcon
          exact absurd hcon hL

theorem validate_rank_ne {β W O : Type} {fwd : W → β → Except PyErr (ℚ × ℚ)}
    {it n : Nat} {c : Bool} {s s' : EngineState β W O}
    (hr : ¬ s.rank = 0) (h : validate fwd it n c s = .ok s') :
    ∃ r a, s'.valLog = s.valLog ∧ s'.bestValidationLoss = s.bestValidationLoss ∧
      s'.rank = s.rank ∧ s'.dirpath = s.dirpath ∧ s'.modelName = s.modelName ∧
      s'.valLoader = s.valLoader ∧ s'.weights = s.weights ∧
      s'.iteration = s.iteration ∧ s'.epoch = s.epoch ∧ s'.step = s.step ∧
      s'.trainLog = s.trainLog ∧ s'.optimizer = s.optimizer ∧ s'.files = s.files ∧
      s'.events = s.events ++ [Event.valCall r a] := by
  obtain ⟨m, totL, totA, flags, s₁, hn, hl, hb⟩ := validate_unfold_ok h
  obtain ⟨core, hflen⟩ := validateLoop_frame fwd hl
  obtain ⟨c1, c2, c3, c4, c5, c6, c7, c8, c9, c10, c11, c12, c13, c14, c15⟩ := core
  have hr2 : ¬ ({ s₁ with events := s₁.events ++
      [Event.valCall (flags.head?.getD false) (flags.contains true)]
      } : EngineState β W O).rank = 0 := by
    show ¬ s₁.rank = 0
    rw [c3]
    exact hr
  rw [valBookkeeping_rank_ne hr2] at hb
  injection hb with hS
  subst hS
  exact ⟨flags.head?.getD false, flags.contains true, c12, c9, c3, c1, c2, c10,
    c4, c6, c7, c8, c13, c5, c11, by simp [c14]⟩

theorem valBookkeeping_heap {β W O : Type} {L A : ℚ} {c : Bool}
    {s s' : EngineState β W O} (h : valBookkeeping L A c s = .ok s') :
    s'.heap = s.heap ∧
    ∃ Δ, s'.events = s.events ++ Δ ∧ Δ.all (fun e => !evIsCall e) = true := by
  by_cases hr : s.rank = 0
  · cases ho : s.optimizer with
    | some o =>
      rw [valBookkeeping_rank0_spec hr ho] at h
      injection h with hS
      subst hS
      refine ⟨rfl, (if L < s.bestValidationLoss then
          [Event.saved (saveFilename s.dirpath s.modelName "BEST")] else []) ++
        (if c then [Event.saved (saveFilename s.dirpath s.modelName "")] else []),
        by simp [List.append_assoc], ?_⟩
      by_cases hL : L < s.bestValidationLoss <;> cases c <;> simp [hL, evIsCall]
    | none =>
      by_cases hL : L < s.bestValidationLoss
      · rw [valBookkeeping_rank0_none_best_err hr ho hL] at h
        exact absurd h (by simp)
      · cases c with
        | true =>
          rw [valBookkeeping_rank0_none_ckpt_err hr ho hL] at h
          exact absurd h (by simp)
        | false =>
          rw [valBookkeeping_rank0_nosave hr hL] at h
          injection h with hS
          subst hS
          exact ⟨rfl, [], by simp, rfl⟩
  · rw [valBookkeeping_rank_ne hr] at h
    injection h with hS
    subst hS
    exact ⟨rfl, [], by simp, rfl⟩

theorem validate_c10 {β W O : Type} {fwd : W → β → Except PyErr (ℚ × ℚ)}
    {i n : Nat} {c : Bool} {s s' : EngineState β W O}
    (hlt : i < s.heap.length) (h : validate fwd i n c s = .ok s') :
    ∃ r a Δs, s'.events = s.events ++ Event.valCall r a :: Δs ∧
      Δs.all (fun e => !evIsCall e) = true ∧
      i < s'.heap.length ∧
      (heapGet s.heap i = some [] → heapGet s'.heap i = some [] ∧ r = true) ∧
      (a = true → heapGet s'.heap i = some []) := by
  obtain ⟨m, totL, totA, flags, s₁, hn, hl, hb⟩ := validate_unfold_ok h
  obtain ⟨core, hflen⟩ := validateLoop_frame fwd hl
  obtain ⟨c1, c2, c3, c4, c5, c6, c7, c8, c9, c10, c11, c12, c13, c14, c15⟩ := core
  obtain ⟨hheap, Δb, hev, hcallfree⟩ := valBookkeeping_heap hb
  have hheap1 : s'.heap = s₁.heap := hheap
  refine ⟨flags.head?.getD false, flags.contains true, Δb, ?_, hcallfree, ?_, ?_, ?_⟩
  · rw [hev]
    simp [c14, List.append_assoc]
  · rw [hheap1]
    omega
  · intro hi
    have h1 : heapGet s₁.heap i = some [] := validateLoop_preserve_empty fwd hi hl
    rw [hn] at hl
    have h2 := validateLoop_first_flag fwd hi hl
    constructor
    · rw [hheap1]; exact h1
    · rw [h2]; rfl
  · intro ha
    have h1 : heapGet s₁.heap i = some [] :=
      validateLoop_contains_empty fwd hlt hl ha
    rw [hheap1]; exact h1

/-! ### Trace lemmas for the recovery property -/

theorem evTrigger_isCall {e : Event} (h : evTrigger e = true) : evIsCall e = true := by
  cases e <;> simp_all [evTrigger, evIsCall]

theorem acr_of_nocalls {Δ : List Event} (h : Δ.all (fun e => !evIsCall e) = true) :
    allCallsRecovered Δ = true := by
  unfold allCallsRecovered
  rw [List.all_eq_true] at h ⊢
  intro e he
  have h2 := h e he
  simp only [Bool.not_eq_true'] at h2
  simp [h2]

theorem pe_of_nocalls {Δ : List Event} (h : Δ.all (fun e => !evIsCall e) = true) :
    postExhaustRecovery Δ = true := by
  induction Δ with
  | nil => rfl
  | cons e rest ih =>
    rw [List.all_cons, Bool.and_eq_true] at h
    have ht : evTrigger e = false := by
      cases h2 : evTrigger e
      · rfl
      · have := evTrigger_isCall h2
        rw [this] at h
        simp at h
    unfold postExhaustRecovery
    rw [ht]
    simp only [Bool.false_eq_true, if_false]
    exact ih h.2

theorem pe_append_nocalls {es Δ : List Event}
    (hpe : postExhaustRecovery es = true)
    (hΔ : Δ.all (fun e => !evIsCall e) = true) :
    postExhaustRecovery (es ++ Δ) = true := by
  induction es with
  | nil => simpa using pe_of_nocalls hΔ
  | cons e rest ih =>
    rw [List.cons_append]
    simp only [postExhaustRecovery] at hpe ⊢
    cases ht : evTrigger e with
    | true =>
      simp only [ht, if_true] at hpe ⊢
      simp only [allCallsRecovered, List.all_append] at hpe ⊢
      rw [hpe]
      simpa [allCallsRecovered] using acr_of_nocalls hΔ
    | false =>
      simp only [ht, Bool.false_eq_true, if_false] at hpe ⊢
      exact ih hpe

theorem pe_append_call {es : List Event} {r a : Bool} {Δs : List Event}
    (hpe : postExhaustRecovery es = true)
    (hΔ : Δs.all (fun e => !evIsCall e) = true)
    (hr : hasTrigger es = true → r = true) :
    postExhaustRecovery (es ++ Event.valCall r a :: Δs) = true := by
  induction es with
  | nil =>
    rw [List.nil_append]
    simp only [postExhaustRecovery]
    cases a with
    | true =>
      simp only [evTrigger, if_true]
      simpa [allCallsRecovered] using acr_of_nocalls hΔ
    | false =>
      simp only [evTrigger, Bool.false_eq_true, if_false]
      exact pe_of_nocalls hΔ
  | cons e rest ih =>
    rw [List.cons_append]
    simp only [postExhaustRecovery] at hpe ⊢
    cases ht : evTrigger e with
    | true =>
      simp only [ht, if_true] at hpe ⊢
      have hrt : r = true := hr (by simp [hasTrigger, List.any_cons, ht])
      simp only [allCallsRecovered, List.all_append, List.all_cons] at hpe ⊢
      rw [hpe]
      have h2 := acr_of_nocalls hΔ
      simp only [allCallsRecovered] at h2
      rw [h2]
      simp [evIsCall, evFirstRec, hrt]
    | false =>
      simp only [ht, Bool.false_eq_true, if_false] at hpe ⊢
      refine ih hpe ?_
      intro h2
      refine hr ?_
      have h3 : hasTrigger (e :: rest) = (evTrigger e || hasTrigger rest) := by
        simp [hasTrigger, List.any_cons]
      rw [h3, h2, Bool.or_true]

theorem hasTrigger_nocalls {Δ : List Event}
    (h : Δ.all (fun e => !evIsCall e) = true) : hasTrigger Δ = false := by
  unfold hasTrigger
  rw [List.any_eq_false]
  intro x hx
  have h2 := List.all_eq_true.mp h x hx
  cases h3 : evTrigger x
  · simp
  · rw [evTrigger_isCall h3] at h2
    simp at h2

/-! ### Minimum bookkeeping lemmas -/

theorem ite_lt_eq_min (b L : ℚ) : (if L < b then L else b) = min b L := by
  by_cases h : L < b
  · rw [if_pos h, min_eq_right h.le]
  · rw [if_neg h, min_eq_left (not_lt.mp h)]

theorem goodChain_append {b : ℚ} {Δ₁ Δ₂ : List ValEntry}
    (h1 : goodChain b Δ₁)
    (h2 : goodChain (List.foldl min b (Δ₁.map ValEntry.loss)) Δ₂) :
    goodChain b (Δ₁ ++ Δ₂) := by
  induction Δ₁ generalizing b with
  | nil => simpa using h2
  | cons e es ih =>
    exact ⟨h1.1, ih h1.2 (by simpa using h2)⟩

theorem runInv_refl {β W O : Type} (s : EngineState β W O) : RunInv s s :=
  ⟨rfl, rfl, rfl, rfl, ⟨[], (List.nil_append s.files).symm⟩,
    ⟨[], (List.append_nil s.events).symm⟩,
    ⟨[], (List.append_nil s.valLog).symm, rfl, trivial⟩⟩

theorem runInv_trans {β W O : Type} {s s₁ s₂ : EngineState β W O}
    (h : RunInv s s₁) (h' : RunInv s₁ s₂) : RunInv s s₂ := by
  obtain ⟨a1, a2, a3, a4, ⟨f1, hf1⟩, ⟨e1, he1⟩, Δ₁, hl1, hb1, hg1⟩ := h
  obtain ⟨b1, b2, b3, b4, ⟨f2, hf2⟩, ⟨e2, he2⟩, Δ₂, hl2, hb2, hg2⟩ := h'
  refine ⟨b1.trans a1, b2.trans a2, b3.trans a3, b4.trans a4,
    ⟨f2 ++ f1, by rw [hf2, hf1, List.append_assoc]⟩,
    ⟨e1 ++ e2, by rw [he2, he1, List.append_assoc]⟩,
    Δ₁ ++ Δ₂, by rw [hl2, hl1, List.append_assoc], ?_, ?_⟩
  · rw [hb2, hb1, List.map_append, List.foldl_append]
  · refine goodChain_append hg1 ?_
    rw [← hb1]
    exact hg2

theorem validate_runInv {β W O : Type} {fwd : W → β → Except PyErr (ℚ × ℚ)}
    {it n : Nat} {c : Bool} {s s' : EngineState β W O}
    (h : validate fwd it n c s = .ok s') : RunInv s s' := by
  by_cases hr : s.rank = 0
  · obtain ⟨L, A, r, a, Δs, hlog, hbest, r3, r4, r5, r6, r7, r8, r9, r10, r11,
      r12, hfl, hev, hall, hmem, hloop⟩ := validate_rank0 hr h
    refine ⟨r3, r4, r5, r6, hfl, ⟨Event.valCall r a :: Δs, hev⟩,
      [⟨s.iteration, L, A, (if L < s.bestValidationLoss then 1 else 0), s.epoch⟩],
      hlog, ?_, ?_, trivial⟩
    · rw [hbest]
      simp [ite_lt_eq_min]
    · by_cases hL : L < s.bestValidationLoss <;> simp [hL]
  · obtain ⟨r, a, hlog, hbest, r3, r4, r5, r6, r7, r8, r9, r10, r11, r12, r13,
      hev⟩ := validate_rank_ne hr h
    exact ⟨r3, r4, r5, r6, ⟨[], by rw [r13]; simp⟩, ⟨[Event.valCall r a], hev⟩,
      [], by rw [hlog]; simp, by rw [hbest]; rfl, trivial⟩

theorem validate_C10Inv {β W O : Type} {fwd : W → β → Except PyErr (ℚ × ℚ)}
    {i n : Nat} {c : Bool} {s s' : EngineState β W O}
    (h : validate fwd i n c s = .ok s') (inv : C10Inv i s) : C10Inv i s' := by
  obtain ⟨hpe, htr, hlt⟩ := inv
  obtain ⟨r, a, Δs, hev, hall, hlt', hempty, ha⟩ := validate_c10 hlt h
  refine ⟨?_, ?_, hlt'⟩
  · rw [hev]
    refine pe_append_call hpe hall ?_
    intro h2
    exact (hempty (htr h2)).2
  · intro h2
    rw [hev] at h2
    unfold hasTrigger at h2
    rw [List.any_append, List.any_cons] at h2
    rcases Bool.or_eq_true_iff.mp h2 with h3 | h3
    · exact (hempty (htr h3)).1
    · rcases Bool.or_eq_true_iff.mp h3 with h4 | h4
      · exact ha h4
      · have := hasTrigger_nocalls hall
        unfold hasTrigger at this
        rw [this] at h4
        simp at h4

/-! ### Training-step lemmas -/

theorem trainBatchStep_ok {β W O : Type} {fwd : W → β → Except PyErr (ℚ × ℚ)}
    {tStep : W → β → W} {valIt v n : Nat} {c : Bool} {b : β}
    {s s' : EngineState β W O}
    (h : trainBatchStep fwd tStep valIt v n c b s = .ok s') :
    ¬ v = 0 ∧ ∃ s₁ l a,
      (s.iteration % v = 0 → validate fwd valIt n c s = .ok s₁) ∧
      (¬ s.iteration % v = 0 → s₁ = s) ∧
      fwd s₁.weights b = .ok (l, a) ∧
      s' = { s₁ with
        weights := tStep s₁.weights b,
        step := s₁.step + 1,
        iteration := s₁.iteration + 1,
        trainLog := s₁.trainLog ++ [⟨s₁.iteration + 1, s₁.epoch, l, a⟩],
        events := s₁.events ++ [Event.batchTrained (s₁.iteration + 1)] } := by
  unfold trainBatchStep at h
  by_cases hv : v = 0
  · rw [if_pos hv] at h
    exact absurd h (by simp)
  · rw [if_neg hv] at h
    refine ⟨hv, ?_⟩
    by_cases hdiv : s.iteration % v = 0
    · rw [if_pos hdiv] at h
      cases hval : validate fwd valIt n c s with
      | error e => rw [hval] at h; exact absurd h (by simp)
      | ok s₁ =>
        rw [hval] at h
        simp only at h
        cases hw : fwd s₁.weights b with
        | error e => rw [hw] at h; exact absurd h (by simp)
        | ok p =>
          obtain ⟨l, a⟩ := p
          rw [hw] at h
          simp only [Except.ok.injEq] at h
          exact ⟨s₁, l, a, fun _ => rfl, fun hc => absurd hdiv hc, hw, h.symm⟩
    · rw [if_neg hdiv] at h
      simp only at h
      cases hw : fwd s.weights b with
      | error e => rw [hw] at h; exact absurd h (by simp)
      | ok p =>
        obtain ⟨l, a⟩ := p
        rw [hw] at h
        simp only [Except.ok.injEq] at h
        exact ⟨s, l, a, fun hc => absurd hc hdiv, fun _ => rfl, hw, h.symm⟩

theorem trainBatchStep_runInv {β W O : Type} {fwd : W → β → Except PyErr (ℚ × ℚ)}
    {tStep : W → β → W} {valIt v n : Nat} {c : Bool} {b : β}
    {s s' : EngineState β W O}
    (h : trainBatchStep fwd tStep valIt v n c b s = .ok s') : RunInv s s' := by
  obtain ⟨hv, s₁, l, a, hval, hskip, hw, hs'⟩ := trainBatchStep_ok h
  have step2 : RunInv s₁ s' := by
    subst hs'
    exact ⟨rfl, rfl, rfl, rfl, ⟨[], (List.nil_append _).symm⟩,
      ⟨[Event.batchTrained (s₁.iteration + 1)], rfl⟩,
      [], (List.append_nil _).symm, rfl, trivial⟩
  by_cases hdiv : s.iteration % v = 0
  · exact runInv_trans (validate_runInv (hval hdiv)) step2
  · rw [hskip hdiv] at step2
    exact step2

theorem trainBatchStep_C10Inv {β W O : Type} {fwd : W → β → Except PyErr (ℚ × ℚ)}
    {tStep : W → β → W} {i v n : Nat} {c : Bool} {b : β}
    {s s' : EngineState β W O}
    (h : trainBatchStep fwd tStep i v n c b s = .ok s')
    (inv : C10Inv i s) : C10Inv i s' := by
  obtain ⟨hv, s₁, l, a, hval, hskip, hw, hs'⟩ := trainBatchStep_ok h
  have inv1 : C10Inv i s₁ := by
    by_cases hdiv : s.iteration % v = 0
    · exact validate_C10Inv (hval hdiv) inv
    · rw [hskip hdiv]; exact inv
  obtain ⟨hpe, htr, hlt⟩ := inv1
  subst hs'
  refine ⟨?_, ?_, hlt⟩
  · exact pe_append_nocalls hpe (by simp [evIsCall])
  · intro h2
    unfold hasTrigger at h2
    rw [List.any_append, List.any_cons] at h2
    rcases Bool.or_eq_true_iff.mp h2 with h3 | h3
    · exact htr h3
    · rcases Bool.or_eq_true_iff.mp h3 with h4 | h4
      · simp [evTrigger] at h4
      · simp at h4

/-! ### Epoch-loop lemmas -/

theorem trainEpochBatches_runInv {β W O : Type} {fwd : W → β → Except PyErr (ℚ × ℚ)}
    {tStep : W → β → W} {valIt v n : Nat} {c : Bool}
    (bs : List β) {s s' : EngineState β W O}
    (h : trainEpochBatches fwd tStep valIt v n c bs s = .ok s') : RunInv s s' := by
  induction bs generalizing s with
  | nil =>
    simp only [trainEpochBatches, Except.ok.injEq] at h
    rw [← h]
    exact runInv_refl s
  | cons b bs ih =>
    simp only [trainEpochBatches] at h
    cases hstep : trainBatchStep fwd tStep valIt v n c b s with
    | error e => rw [hstep] at h; exact absurd h (by simp)
    | ok s₁ =>
      rw [hstep] at h
      simp only at h
      exact runInv_trans (trainBatchStep_runInv hstep) (ih h)

theorem trainEpochBatches_C10Inv {β W O : Type} {fwd : W → β → Except PyErr (ℚ × ℚ)}
    {tStep : W → β → W} {i v n : Nat} {c : Bool}
    (bs : List β) {s s' : EngineState β W O}
    (h : trainEpochBatches fwd tStep i v n c bs s = .ok s')
    (inv : C10Inv i s) : C10Inv i s' := by
  induction bs generalizing s with
  | nil =>
    simp only [trainEpochBatches, Except.ok.injEq] at h
    rw [← h]
    exact inv
  | cons b bs ih =>
    simp only [trainEpochBatches] at h
    cases hstep : trainBatchStep fwd tStep i v n c b s with
    | error e => rw [hstep] at h; exact absurd h (by simp)
    | ok s₁ =>
      rw [hstep] at h
      simp only at h
      exact ih h (trainBatchStep_C10Inv hstep inv)

theorem epochEndSave_ok {β W O : Type} {si : Option Nat} {s s' : EngineState β W O}
    (h : epochEndSave si s = .ok s') :
    s' = s ∨ ∃ (o : O) (k : Nat), s.optimizer = some o ∧
      s' = { s with
        files := (saveFilename s.dirpath s.modelName ("_epoch_" ++ toString k),
                  (⟨s.iteration, o, s.weights⟩ : Checkpoint W O)) :: s.files,
        events := s.events ++
          [Event.saved (saveFilename s.dirpath s.modelName ("_epoch_" ++ toString k))] } := by
  unfold epochEndSave at h
  cases si with
  | none =>
    simp only [Except.ok.injEq] at h
    exact Or.inl h.symm
  | some k =>
    simp only at h
    by_cases hk : k = 0
    · rw [if_pos hk] at h
      exact absurd h (by simp)
    · rw [if_neg hk] at h
      by_cases hdiv : (s.epoch + 1) % k = 0
      · rw [if_pos hdiv] at h
        unfold save_state at h
        cases ho : s.optimizer with
        | none => rw [ho] at h; exact absurd h (by simp)
        | some o =>
          rw [ho] at h
          simp only [Except.ok.injEq] at h
          exact Or.inr ⟨o, s.epoch + 1, rfl, h.symm⟩
      · rw [if_neg hdiv] at h
        simp only [Except.ok.injEq] at h
        exact Or.inl h.symm

theorem epochEndSave_runInv {β W O : Type} {si : Option Nat}
    {s s' : EngineState β W O} (h : epochEndSave si s = .ok s') : RunInv s s' := by
  rcases epochEndSave_ok h with hs | ⟨o, k, ho, hs⟩
  · rw [hs]; exact runInv_refl s
  · subst hs
    exact ⟨rfl, rfl, rfl, rfl,
      ⟨[(saveFilename s.dirpath s.modelName ("_epoch_" ++ toString k),
          (⟨s.iteration, o, s.weights⟩ : Checkpoint W O))], rfl⟩,
      ⟨[Event.saved (saveFilename s.dirpath s.modelName ("_epoch_" ++ toString k))], rfl⟩,
      [], (List.append_nil _).symm, rfl, trivial⟩

theorem epochEndSave_C10Inv {β W O : Type} {si : Option Nat} {i : Nat}
    {s s' : EngineState β W O} (h : epochEndSave si s = .ok s')
    (inv : C10Inv i s) : C10Inv i s' := by
  obtain ⟨hpe, htr, hlt⟩ := inv
  rcases epochEndSave_ok h with hs | ⟨o, k, ho, hs⟩
  · rw [hs]; exact ⟨hpe, htr, hlt⟩
  · subst hs
    refine ⟨pe_append_nocalls hpe (by simp [evIsCall]), ?_, hlt⟩
    intro h2
    unfold hasTrigger at h2
    rw [List.any_append, List.any_cons] at h2
    rcases Bool.or_eq_true_iff.mp h2 with h3 | h3
    · exact htr h3
    · rcases Bool.or_eq_true_iff.mp h3 with h4 | h4
      · simp [evTrigger] at h4
      · simp at h4

theorem trainEpochs_runInv {β W O : Type} {fwd : W → β → Except PyErr (ℚ × ℚ)}
    {tStep : W → β → W} {valIt v n : Nat} {c : Bool} {si : Option Nat}
    {tl : List β} (ep e : Nat) {s s' : EngineState β W O}
    (h : trainEpochs fwd tStep valIt v n c si tl ep e s = .ok s') : RunInv s s' := by
  induction ep generalizing e s with
  | zero =>
    simp only [trainEpochs, Except.ok.injEq] at h
    rw [← h]
    exact runInv_refl s
  | succ m ih =>
    simp only [trainEpochs] at h
    cases hb : trainEpochBatches fwd tStep valIt v n c tl
        { s with epoch := e, step := 0 } with
    | error er => rw [hb] at h; exact absurd h (by simp)
    | ok s₁ =>
      rw [hb] at h
      simp only at h
      cases he : epochEndSave si s₁ with
      | error er => rw [he] at h; exact absurd h (by simp)
      | ok s₂ =>
        rw [he] at h
        simp only at h
        have inv0 : RunInv s ({ s with epoch := e, step := 0 } : EngineState β W O) :=
          ⟨rfl, rfl, rfl, rfl, ⟨[], (List.nil_append _).symm⟩,
            ⟨[], (List.append_nil _).symm⟩, [], (List.append_nil _).symm, rfl, trivial⟩
        exact runInv_trans inv0 (runInv_trans (trainEpochBatches_runInv tl hb)
          (runInv_trans (epochEndSave_runInv he) (ih (e + 1) h)))

theorem trainEpochs_C10Inv {β W O : Type} {fwd : W → β → Except PyErr (ℚ × ℚ)}
    {tStep : W → β → W} {i v n : Nat} {c : Bool} {si : Option Nat}
    {tl : List β} (ep e : Nat) {s s' : EngineState β W O}
    (h : trainEpochs fwd tStep i v n c si tl ep e s = .ok s')
    (inv : C10Inv i s) : C10Inv i s' := by
  induction ep generalizing e s with
  | zero =>
    simp only [trainEpochs, Except.ok.injEq] at h
    rw [← h]
    exact inv
  | succ m ih =>
    simp only [trainEpochs] at h
    cases hb : trainEpochBatches fwd tStep i v n c tl
        { s with epoch := e, step := 0 } with
    | error er => rw [hb] at h; exact absurd h (by simp)
    | ok s₁ =>
      rw [hb] at h
      simp only at h
      cases he : epochEndSave si s₁ with
      | error er => rw [he] at h; exact absurd h (by simp)
      | ok s₂ =>
        rw [he] at h
        simp only at h
        have inv0 : C10Inv i ({ s with epoch := e, step := 0 } : EngineState β W O) := inv
        exact ih (e + 1) h (epochEndSave_C10Inv he (trainEpochBatches_C10Inv tl hb inv0))

/-- C2: Validation-loss bookkeeping tracks a minimum.  In any successful
`train` run on rank 0, the final `best_validation_loss` equals the
minimum of its initial value `1.0e10` and all global validation losses
of the run (the losses of the validation-log entries the run appended),
and the chain of entries is correct stepwise (`goodChain`): each entry
records `saved_best = 1` exactly when its loss is strictly below the
best value so far.  Moreover each single `validate` call on rank 0
appends exactly one entry, updates the best loss to the minimum of the
previous best and that entry's loss, and has `saved_best = 1` — together
with a `"BEST"` checkpoint written to disk — if and only if its loss is
strictly below the previous best. -/
theorem validation_loss_tracks_minimum {β W O : Type}
    (fwd : W → β → Except PyErr (ℚ × ℚ)) (tStep : W → β → W)
    (epochs v n : Nat) (c : Bool) (si : Option Nat) (tl : List β)
    (s s' : EngineState β W O) (_hr : s.rank = 0)
    (h : train fwd tStep epochs v n c si tl s = .ok s') :
    (∃ Δ, s'.valLog = s.valLog ++ Δ ∧
      s'.bestValidationLoss = List.foldl min (1e10 : ℚ) (Δ.map ValEntry.loss) ∧
      goodChain (1e10 : ℚ) Δ) ∧
    (∀ (it n₂ : Nat) (c₂ : Bool) (t t' : EngineState β W O), t.rank = 0 →
      validate fwd it n₂ c₂ t = .ok t' →
      ∃ entry : ValEntry, t'.valLog = t.valLog ++ [entry] ∧
        t'.bestValidationLoss = min t.bestValidationLoss entry.loss ∧
        (entry.saved_best = 1 ↔ entry.loss < t.bestValidationLoss) ∧
        (entry.saved_best = 1 →
          ∃ ck, (saveFilename t.dirpath t.modelName "BEST", ck) ∈ t'.files)) := by
  constructor
  · unfold train at h
    simp only [newIter] at h
    have inv := trainEpochs_runInv epochs 0 h
    obtain ⟨r1, r2, r3, r4, hf, he, Δ, hlog, hbest, hchain⟩ := inv
    exact ⟨Δ, by simpa using hlog, by simpa using hbest, hchain⟩
  · intro it n₂ c₂ t t' htr hv
    obtain ⟨L, A, r, a, Δs, hlog, hbest, r3, r4, r5, r6, r7, r8, r9, r10, r11,
      r12, hfl, hev, hall, hmem, hloop⟩ := validate_rank0 htr hv
    refine ⟨⟨t.iteration, L, A, (if L < t.bestValidationLoss then 1 else 0), t.epoch⟩,
      hlog, ?_, ?_, ?_⟩
    · rw [hbest]
      exact ite_lt_eq_min t.bestValidationLoss L
    · by_cases hL : L < t.bestValidationLoss <;> simp [hL]
    · intro hsb
      have hL : L < t.bestValidationLoss := by
        by_cases hL : L < t.bestValidationLoss
        · exact hL
        · rw [if_neg hL] at hsb
          exact absurd hsb (by simp)
      obtain ⟨o, ho, hm⟩ := hmem hL
      exact ⟨⟨t.iteration, o, t.weights⟩, hm⟩

/-- C2 witness: the bookkeeping theorem applied to a concrete one-epoch,
one-batch run on rank 0. -/
theorem validation_loss_tracks_minimum_witness :
    exState.rank = 0 ∧
    ∃ s', train fwdOne (fun w _ => w) 1 1 1 false none [0] exState = .ok s' ∧
      (∃ Δ, s'.valLog = exState.valLog ++ Δ ∧
        s'.bestValidationLoss = List.foldl min (1e10 : ℚ) (Δ.map ValEntry.loss) ∧
        goodChain (1e10 : ℚ) Δ) := by
  refine ⟨rfl, ?_⟩
  cases hrun : train fwdOne (fun w _ => w) 1 1 1 false none [0] exState with
  | error e =>
    have hok : (okValLog (train fwdOne (fun w _ => w) 1 1 1 false none [0]
        exState)).isSome = true := by decide
    rw [hrun] at hok
    exact absurd hok (by simp [okValLog])
  | ok s' =>
    exact ⟨s', rfl,
      (validation_loss_tracks_minimum fwdOne (fun w _ => w) 1 1 1 false none [0]
        exState s' rfl hrun).1⟩

/-- C10: `train` creates the validation iterator exactly once, before the
epoch loop, and passes that same iterator to every `validate` call; the
replacement iterator built in the `StopIteration` handler is bound only
to `validate`'s local name, so `train`'s binding still refers to the
exhausted iterator.  Observable consequence proved here: in the event
trace of any successful `train` run started with an empty trace, after
the first `validate` call some of whose fetches hit the recovery handler
(the shared iterator is exhausted from then on), every later `validate`
call enters the `StopIteration` recovery branch on its first batch
fetch. -/
theorem stale_iterator_recovery {β W O : Type}
    (fwd : W → β → Except PyErr (ℚ × ℚ)) (tStep : W → β → W)
    (epochs v n : Nat) (c : Bool) (si : Option Nat) (tl : List β)
    (s s' : EngineState β W O) (hev : s.events = [])
    (h : train fwd tStep epochs v n c si tl s = .ok s') :
    postExhaustRecovery s'.events = true := by
  unfold train at h
  simp only [newIter] at h
  refine (trainEpochs_C10Inv epochs 0 h ?_).1
  refine ⟨?_, ?_, ?_⟩
  · show postExhaustRecovery s.events = true
    rw [hev]
    rfl
  · intro htr
    have h2 : hasTrigger s.events = true := htr
    rw [hev] at h2
    exact absurd h2 (by simp [hasTrigger])
  · show s.heap.length < (s.heap ++ [s.valLoader]).length
    simp

/-- C10 witness: a run whose single-batch validation loader is exhausted
during the first validate call (`num_val_batches = 2`), applied to the
trace property. -/
theorem stale_iterator_recovery_witness :
    exStateShortLoader.events = [] ∧
    ∃ s', train fwdOne (fun w _ => w) 2 1 2 false none [0] exStateShortLoader = .ok s' ∧
      postExhaustRecovery s'.events = true := by
  refine ⟨rfl, ?_⟩
  cases hrun : train fwdOne (fun w _ => w) 2 1 2 false none [0] exStateShortLoader with
  | error e =>
    have hok : (okValLog (train fwdOne (fun w _ => w) 2 1 2 false none [0]
        exStateShortLoader)).isSome = true := by decide
    rw [hrun] at hok
    exact absurd hok (by simp [okValLog])
  | ok s' =>
    exact ⟨s', rfl, stale_iterator_recovery fwdOne (fun w _ => w) 2 1 2 false none [0]
      exStateShortLoader s' rfl hrun⟩

/-- C5 counterexample: with an empty validation loader and an exhausted
iterator, the `StopIteration` raised by `next` on the freshly created
iterator inside the handler is not caught: `validate` reports the error
to the caller, contradicting the claim that the recovery never reports
an error. -/
theorem validate_empty_loader_counterexample :
    validate fwdOne 0 1 false exStateEmptyLoader = .error .stopIteration := by
  decide

/-- C5 (amended): exhaustion of the validation iterator is the only
recovered error, provided the validation loader is non-empty: when
`next(val_iter)` raises `StopIteration`, the handler creates a fresh
iterator over the loader and fetches the loader's first batch from it,
reporting no error; with an empty loader the refetch raises
`StopIteration`, which propagates; and an exception raised by the
forward pass inside `validate` propagates unhandled. -/
theorem stopIteration_recovery_amended {β W O : Type} :
    (∀ (it : Nat) (s : EngineState β W O) (b : β) (bs : List β),
      heapNext it s = none → s.valLoader = b :: bs →
      fetchValBatch it s = .ok (b, s.heap.length, true,
        { s with heap := s.heap ++ [bs] })) ∧
    (∀ (it : Nat) (s : EngineState β W O) (e : PyErr),
      fetchValBatch it s = .error e → e = .stopIteration ∧ s.valLoader = []) ∧
    (∀ (fwd : W → β → Except PyErr (ℚ × ℚ)) (it n : Nat) (c : Bool)
      (s s₁ : EngineState β W O) (b : β) (e : PyErr),
      heapNext it s = some (b, s₁) → fwd s.weights b = .error e →
      validate fwd it (n + 1) c s = .error e) := by
  refine ⟨fun it s b bs hn hl => fetch_recover hn hl,
    fun it s e he => ⟨(fetch_error he).1, (fetch_error he).2.2⟩, ?_⟩
  intro fwd it n c s s₁ b e hn hw
  obtain ⟨rest, hg, hs₁⟩ := heapNext_some hn
  have hfetch : fetchValBatch it s = .ok (b, it, false, s₁) := by
    unfold fetchValBatch
    rw [hn]
  have hw1 : fwd s₁.weights b = .error e := by
    rw [hs₁]
    exact hw
  unfold validate
  simp only [validateLoop]
  rw [hfetch]
  simp only
  rw [hw1]

/-- C5 witness: the amended recovery behaviour at concrete inputs: a
recovering fetch on an exhausted iterator over loader `[11, 12]`, and a
forward-pass error propagating out of `validate`. -/
theorem stopIteration_recovery_amended_witness :
    (heapNext 0 ({ exState with heap := [[]] } : EngineState Nat Nat Nat) = none ∧
      ({ exState with heap := [[]] } : EngineState Nat Nat Nat).valLoader = 11 :: [12] ∧
      fetchValBatch 0 ({ exState with heap := [[]] } : EngineState Nat Nat Nat) =
        .ok (11, 1, true, { exState with heap := [[], [12]] })) ∧
    (heapNext 0 ({ exState with heap := [[5]] } : EngineState Nat Nat Nat) =
        some (5, { exState with heap := [[]] }) ∧
      validate fwdRaise 0 1 false ({ exState with heap := [[5]] } :
        EngineState Nat Nat Nat) = .error .fwdError) := by
  refine ⟨⟨by decide, rfl, ?_⟩, by decide, ?_⟩
  · have h := stopIteration_recovery_amended.1 0
      ({ exState with heap := [[]] } : EngineState Nat Nat Nat) 11 [12]
      (by decide) rfl
    simpa using h
  · have h := stopIteration_recovery_amended.2.2 fwdRaise 0 0 false
      ({ exState with heap := [[5]] } : EngineState Nat Nat Nat)
      ({ exState with heap := [[]] } : EngineState Nat Nat Nat) 5 .fwdError
      (by decide) rfl
    exact h

/-- C7: the training loop runs validation on a fixed interval, and each
validate call averages over exactly `num_val_batches` batches.  Part 1:
in a training batch step, a `validate` call happens (and its trace
precedes the batch's own `batchTrained` event) if and only if the
iteration counter is divisible by `val_interval`.  Part 2: a successful
rank-0 `validate` call logs exactly one entry whose loss and accuracy
are the arithmetic means, over exactly `num_val_batches` fetched
validation batches, of the losses and accuracies the forward pass
produced on them. -/
theorem val_schedule_and_mean {β W O : Type}
    (fwd : W → β → Except PyErr (ℚ × ℚ)) (tStep : W → β → W) :
    (∀ (valIt v n : Nat) (c : Bool) (b : β) (s s' : EngineState β W O),
      trainBatchStep fwd tStep valIt v n c b s = .ok s' →
      (s.iteration % v = 0 → ∃ r a Δs, s'.events =
        s.events ++ Event.valCall r a :: (Δs ++ [Event.batchTrained (s.iteration + 1)])) ∧
      (¬ s.iteration % v = 0 →
        s'.events = s.events ++ [Event.batchTrained (s.iteration + 1)])) ∧
    (∀ (it n : Nat) (c : Bool) (t t' : EngineState β W O), t.rank = 0 →
      validate fwd it n c t = .ok t' →
      ∃ entry bs ps, t'.valLog = t.valLog ++ [entry] ∧
        bs.length = n ∧
        List.Forall₂ (fun (b : β) (p : ℚ × ℚ) => fwd t.weights b = .ok p) bs ps ∧
        entry.loss = (ps.map Prod.fst).sum / (n : ℚ) ∧
        entry.accuracy = (ps.map Prod.snd).sum / (n : ℚ)) := by
  constructor
  · intro valIt v n c b s s' h
    obtain ⟨hv, s₁, l, a, hval, hskip, hw, hs'⟩ := trainBatchStep_ok h
    constructor
    · intro hdiv
      have hvok := hval hdiv
      by_cases hr : s.rank = 0
      · obtain ⟨L, A, r, aa, Δs, hlog, hbest, r3, r4, r5, r6, r7, r8, r9, r10, r11,
          r12, hfl, hevv, hall, hmem, hloop⟩ := validate_rank0 hr hvok
        refine ⟨r, aa, Δs, ?_⟩
        rw [hs']
        show s₁.events ++ [Event.batchTrained (s₁.iteration + 1)] =
          s.events ++ Event.valCall r aa ::
            (Δs ++ [Event.batchTrained (s.iteration + 1)])
        rw [hevv, r8]
        simp [List.append_assoc]
      · obtain ⟨r, aa, hlog, hbest, r3, r4, r5, r6, r7, r8, r9, r10, r11, r12, r13,
          hevv⟩ := validate_rank_ne hr hvok
        refine ⟨r, aa, [], ?_⟩
        rw [hs']
        show s₁.events ++ [Event.batchTrained (s₁.iteration + 1)] =
          s.events ++ Event.valCall r aa ::
            ([] ++ [Event.batchTrained (s.iteration + 1)])
        rw [hevv, r8]
        simp [List.append_assoc]
    · intro hdiv
      have hse := hskip hdiv
      subst hse
      rw [hs']
  · intro it n c t t' hr hv
    obtain ⟨L, A, r, aa, Δs, hlog, hbest, r3, r4, r5, r6, r7, r8, r9, r10, r11,
      r12, hfl, hevv, hall, hmem, hloop⟩ := validate_rank0 hr hv
    obtain ⟨totL, totA, flags, s₁, hl, hLd, hAd⟩ := hloop
    obtain ⟨bs, ps, hlen, hall2, hLs, hAs⟩ := validateLoop_sum fwd hl
    refine ⟨⟨t.iteration, L, A, (if L < t.bestValidationLoss then 1 else 0), t.epoch⟩,
      bs, ps, hlog, hlen, hall2, ?_, ?_⟩
    · show L = (ps.map Prod.fst).sum / (n : ℚ)
      rw [hLd, hLs, zero_add]
    · show A = (ps.map Prod.snd).sum / (n : ℚ)
      rw [hAd, hAs, zero_add]

/-- C7 witness: the scheduling part at a concrete divisible step
(iteration 3, interval 1) and, inside the same run, a concrete rank-0
validate call. -/
theorem val_schedule_and_mean_witness :
    exStateIter.iteration % 1 = 0 ∧ exStateIter.rank = 0 ∧
    (∃ s', trainBatchStep fwdOne (fun w _ => w) 0 1 1 false 99 exStateIter = .ok s' ∧
      ∃ r a Δs, s'.events = exStateIter.events ++ Event.valCall r a ::
        (Δs ++ [Event.batchTrained (exStateIter.iteration + 1)])) ∧
    (∃ t', validate fwdOne 0 1 false exStateIter = .ok t' ∧
      ∃ entry bs ps, t'.valLog = exStateIter.valLog ++ [entry] ∧
        bs.length = 1 ∧
        List.Forall₂ (fun (b : Nat) (p : ℚ × ℚ) => fwdOne exStateIter.weights b = .ok p) bs ps ∧
        entry.loss = (ps.map Prod.fst).sum / (1 : ℚ) ∧
        entry.accuracy = (ps.map Prod.snd).sum / (1 : ℚ)) := by
  refine ⟨rfl, rfl, ?_, ?_⟩
  · cases hrun : trainBatchStep fwdOne (fun w _ => w) 0 1 1 false 99 exStateIter with
    | error e =>
      have hok : (okEvents (trainBatchStep fwdOne (fun w _ => w) 0 1 1 false 99
          exStateIter)).isSome = true := by decide
      rw [hrun] at hok
      exact absurd hok (by simp [okEvents])
    | ok s' =>
      exact ⟨s', rfl,
        ((val_schedule_and_mean fwdOne (fun w _ => w)).1 0 1 1 false 99
          exStateIter s' hrun).1 rfl⟩
  · cases hrun : validate fwdOne 0 1 false exStateIter with
    | error e =>
      have hok : (okValLog (validate fwdOne 0 1 false exStateIter)).isSome = true := by
        decide
      rw [hrun] at hok
      exact absurd hok (by simp [okValLog])
    | ok t' =>
      exact ⟨t', rfl,
        (val_schedule_and_mean fwdOne (fun w _ => w)).2 0 1 false
          exStateIter t' rfl hrun⟩

theorem validate_rank0_files {β W O : Type} {fwd : W → β → Except PyErr (ℚ × ℚ)}
    {it n : Nat} {c : Bool} {s s' : EngineState β W O} {o : O}
    (hr : s.rank = 0) (ho : s.optimizer = some o)
    (h : validate fwd it n c s = .ok s') :
    ∃ L A, s'.valLog = s.valLog ++
        [⟨s.iteration, L, A, (if L < s.bestValidationLoss then 1 else 0), s.epoch⟩] ∧
      s'.files =
        (if c then [(saveFilename s.dirpath s.modelName "",
          (⟨s.iteration, o, s.weights⟩ : Checkpoint W O))] else []) ++
        (if L < s.bestValidationLoss then
          [(saveFilename s.dirpath s.modelName "BEST",
            (⟨s.iteration, o, s.weights⟩ : Checkpoint W O))] else []) ++ s.files := by
  obtain ⟨m, totL, totA, flags, s₁, hn, hl, hb⟩ := validate_unfold_ok h
  obtain ⟨core, hflen⟩ := validateLoop_frame fwd hl
  obtain ⟨c1, c2, c3, c4, c5, c6, c7, c8, c9, c10, c11, c12, c13, c14, c15⟩ := core
  set s₂ : EngineState β W O := { s₁ with events := s₁.events ++
    [Event.valCall (flags.head?.getD false) (flags.contains true)] } with hs₂
  have hr2 : s₂.rank = 0 := by rw [hs₂]; exact c3.trans hr
  have ho2 : s₂.optimizer = some o := by rw [hs₂]; exact c5.trans ho
  rw [valBookkeeping_rank0_spec hr2 ho2] at hb
  injection hb with hS
  subst hS
  exact ⟨totL / (n : ℚ), totA / (n : ℚ), by simp [hs₂, c6, c7, c9, c12],
    by simp [hs₂, c1, c2, c4, c6, c9, c11]⟩

/-- C6: every checkpoint written by `save_state` is a single serialized
object with exactly the keys `state_dict` (model weights), `optimizer`
(optimizer state) and `global_step` (iteration count) — the `Checkpoint`
structure — and its filename is the dump path, then the model class
name, then the suffix, then `".pth"`.  The suffix at the three call
sites: `validate` writes a `"BEST"`-suffixed checkpoint when the loss
improves and a suffix-less checkpoint when `checkpointing` is set, in
that order, and the end-of-epoch save writes `"_epoch_<epoch+1>"`
exactly when `(epoch + 1) % save_interval = 0`. -/
theorem checkpoint_name_and_content {β W O : Type} :
    (∀ (name : String) (s : EngineState β W O) (o : O), s.optimizer = some o →
      save_state name s = .ok (saveFilename s.dirpath s.modelName name,
        { s with
          files := (saveFilename s.dirpath s.modelName name,
            (⟨s.iteration, o, s.weights⟩ : Checkpoint W O)) :: s.files,
          events := s.events ++
            [Event.saved (saveFilename s.dirpath s.modelName name)] })) ∧
    (∀ (dirpath modelName name : String),
      saveFilename dirpath modelName name = dirpath ++ modelName ++ name ++ ".pth") ∧
    (∀ (fwd : W → β → Except PyErr (ℚ × ℚ)) (it n : Nat) (c : Bool)
      (s s' : EngineState β W O) (o : O), s.rank = 0 → s.optimizer = some o →
      validate fwd it n c s = .ok s' →
      ∃ L A, s'.valLog = s.valLog ++
          [⟨s.iteration, L, A, (if L < s.bestValidationLoss then 1 else 0), s.epoch⟩] ∧
        s'.files =
          (if c then [(saveFilename s.dirpath s.modelName "",
            (⟨s.iteration, o, s.weights⟩ : Checkpoint W O))] else []) ++
          (if L < s.bestValidationLoss then
            [(saveFilename s.dirpath s.modelName "BEST",
              (⟨s.iteration, o, s.weights⟩ : Checkpoint W O))] else []) ++ s.files) ∧
    (∀ (s : EngineState β W O) (o : O) (si : Nat), s.optimizer = some o → ¬ si = 0 →
      ((s.epoch + 1) % si = 0 → epochEndSave (some si) s = .ok
        { s with
          files := (saveFilename s.dirpath s.modelName
              ("_epoch_" ++ toString (s.epoch + 1)),
            (⟨s.iteration, o, s.weights⟩ : Checkpoint W O)) :: s.files,
          events := s.events ++ [Event.saved (saveFilename s.dirpath s.modelName
            ("_epoch_" ++ toString (s.epoch + 1)))] }) ∧
      (¬ (s.epoch + 1) % si = 0 → epochEndSave (some si) s = .ok s)) ∧
    (∀ (s : EngineState β W O), epochEndSave none s = .ok s) := by
  refine ⟨?_, fun d m n => rfl, ?_, ?_, fun s => rfl⟩
  · intro name s o ho
    simp [save_state, ho]
  · intro fwd it n c s s' o hr ho h
    exact validate_rank0_files hr ho h
  · intro s o si ho hsi
    constructor
    · intro hdiv
      unfold epochEndSave
      simp only
      rw [if_neg hsi, if_pos hdiv]
      simp [save_state, ho]
    · intro hdiv
      unfold epochEndSave
      simp only
      rw [if_neg hsi, if_neg hdiv]

/-- C6 witness: the checkpoint layout at concrete inputs: a direct
`save_state`, a rank-0 validate call that writes the `"BEST"` file, and
a periodic epoch save with `save_interval = 1`. -/
theorem checkpoint_name_and_content_witness :
    (exState.optimizer = some 5 ∧
      save_state "BEST" exState = .ok (saveFilename exState.dirpath exState.modelName "BEST",
        { exState with
          files := (saveFilename exState.dirpath exState.modelName "BEST",
            (⟨exState.iteration, 5, exState.weights⟩ : Checkpoint Nat Nat)) :: exState.files,
          events := exState.events ++
            [Event.saved (saveFilename exState.dirpath exState.modelName "BEST")] })) ∧
    ((exState.epoch + 1) % 1 = 0 ∧ epochEndSave (some 1) exState = .ok
      { exState with
        files := (saveFilename exState.dirpath exState.modelName
            ("_epoch_" ++ toString (exState.epoch + 1)),
          (⟨exState.iteration, 5, exState.weights⟩ : Checkpoint Nat Nat)) :: exState.files,
        events := exState.events ++ [Event.saved (saveFilename exState.dirpath
          exState.modelName ("_epoch_" ++ toString (exState.epoch + 1)))] }) := by
  refine ⟨⟨rfl, ?_⟩, rfl, ?_⟩
  · exact (checkpoint_name_and_content (β := Nat)).1 "BEST" exState 5 rfl
  · exact ((checkpoint_name_and_content (β := Nat)).2.2.2.1 exState 5 1 rfl
      (by decide)).1 rfl

theorem train_unfold {β W O : Type} {fwd : W → β → Except PyErr (ℚ × ℚ)}
    {tStep : W → β → W} {epochs v n : Nat} {c : Bool} {si : Option Nat}
    {tl : List β} {s s' : EngineState β W O}
    (h : train fwd tStep epochs v n c si tl s = .ok s') :
    trainEpochs fwd tStep s.heap.length v n c si tl epochs 0
      { s with epoch := 0, iteration := 0, step := 0,
               bestValidationLoss := (1e10 : ℚ),
               heap := s.heap ++ [s.valLoader] } = .ok s' := by
  unfold train at h
  simp only [newIter] at h
  exact h

theorem trainEpochs_succ_ok {β W O : Type} {fwd : W → β → Except PyErr (ℚ × ℚ)}
    {tStep : W → β → W} {valIt v n : Nat} {c : Bool} {si : Option Nat}
    {tl : List β} {m e : Nat} {s s' : EngineState β W O}
    (h : trainEpochs fwd tStep valIt v n c si tl (m + 1) e s = .ok s') :
    ∃ s₁ s₂, trainEpochBatches fwd tStep valIt v n c tl
        { s with epoch := e, step := 0 } = .ok s₁ ∧
      epochEndSave si s₁ = .ok s₂ ∧
      trainEpochs fwd tStep valIt v n c si tl m (e + 1) s₂ = .ok s' := by
  simp only [trainEpochs] at h
  cases hb : trainEpochBatches fwd tStep valIt v n c tl
      { s with epoch := e, step := 0 } with
  | error er => rw [hb] at h; exact absurd h (by simp)
  | ok s₁ =>
    rw [hb] at h
    simp only at h
    cases he : epochEndSave si s₁ with
    | error er => rw [he] at h; exact absurd h (by simp)
    | ok s₂ =>
      rw [he] at h
      simp only at h
      exact ⟨s₁, s₂, rfl, he, h⟩

theorem trainEpochBatches_cons_ok {β W O : Type} {fwd : W → β → Except PyErr (ℚ × ℚ)}
    {tStep : W → β → W} {valIt v n : Nat} {c : Bool} {b0 : β} {bs : List β}
    {s s' : EngineState β W O}
    (h : trainEpochBatches fwd tStep valIt v n c (b0 :: bs) s = .ok s') :
    ∃ s₁, trainBatchStep fwd tStep valIt v n c b0 s = .ok s₁ ∧
      trainEpochBatches fwd tStep valIt v n c bs s₁ = .ok s' := by
  simp only [trainEpochBatches] at h
  cases hstep : trainBatchStep fwd tStep valIt v n c b0 s with
  | error e => rw [hstep] at h; exact absurd h (by simp)
  | ok s₁ =>
    rw [hstep] at h
    simp only at h
    exact ⟨s₁, rfl, h⟩

/-- C9 counterexample: a rank-0 run with `val_interval = 1` whose first
(and only) validation computes a global loss of `2.0e10`, which is not
below the `1.0e10` sentinel: this first validation records
`saved_best = 0` and writes no `"BEST"` checkpoint (no file at all), so
the first validation does not always save the `"BEST"` checkpoint. -/
theorem first_validation_not_always_best :
    (okValLog (train fwdBig (fun w _ => w) 1 1 1 false none [0] exState)).map
        (List.map ValEntry.saved_best) = some [0] ∧
    okFiles (train fwdBig (fun w _ => w) 1 1 1 false none [0] exState) = some [] := by
  decide

/-- C9 (amended): in every successful training run with a non-empty
training loader and at least one epoch, validation runs before the first
training batch is trained on (the run's first recorded event is the
completion of a `validate` call, preceding every `batchTrained` event:
the iteration counter starts at 0 and 0 is divisible by `val_interval`),
and on rank 0 this first validation saves the `"BEST"` checkpoint if —
as its loss is compared against the freshly reset `1.0e10` sentinel —
its computed global validation loss is strictly below `1.0e10`. -/
theorem first_validation_best_amended {β W O : Type}
    (fwd : W → β → Except PyErr (ℚ × ℚ)) (tStep : W → β → W)
    (epochs v n : Nat) (c : Bool) (si : Option Nat) (b0 : β) (bs : List β)
    (s s' : EngineState β W O) (hr : s.rank = 0) (hev : s.events = [])
    (hlog : s.valLog = []) (hep : ¬ epochs = 0)
    (h : train fwd tStep epochs v n c si (b0 :: bs) s = .ok s') :
    (∃ r a, s'.events.head? = some (Event.valCall r a)) ∧
    ∃ entry, s'.valLog.head? = some entry ∧
      (entry.loss < (1e10 : ℚ) → entry.saved_best = 1 ∧
        ∃ ck, (saveFilename s.dirpath s.modelName "BEST", ck) ∈ s'.files) := by
  have hI := train_unfold h
  cases epochs with
  | zero => exact absurd rfl hep
  | succ m =>
  obtain ⟨sE, sF, hb, he, hrest⟩ := trainEpochs_succ_ok hI
  obtain ⟨sB, hstep, hbs⟩ := trainEpochBatches_cons_ok hb
  obtain ⟨hv, s₁, l, a, hval, hskip, hw, hsB⟩ := trainBatchStep_ok hstep
  have hvok := hval (Nat.zero_mod v)
  obtain ⟨L, A, r, aa, Δs, hlog1, hbest1, r3, r4, r5, r6, r7, r8, r9, r10, r11,
    r12, hfl, hevv, hall, hmem, hloop⟩ := validate_rank0 (by exact hr) hvok
  -- the epoch-start state's fields reduce to those of `s` (with the counters
  -- and the best loss reset); push those reductions into the obtained facts
  simp only [hev, hlog, List.nil_append] at hlog1 hevv hmem
  -- the run after the first batch step only appends to logs, events, files
  have hinv : RunInv sB s' :=
    runInv_trans (trainEpochBatches_runInv bs hbs)
      (runInv_trans (epochEndSave_runInv he) (trainEpochs_runInv m (0 + 1) hrest))
  obtain ⟨i1, i2, i3, i4, ⟨Δf, hf⟩, ⟨Δe, hee⟩, Δl, hl2, hb2, hg2⟩ := hinv
  constructor
  · refine ⟨r, aa, ?_⟩
    rw [hee, hsB]
    show (s₁.events ++ [Event.batchTrained (s₁.iteration + 1)] ++ Δe).head? = _
    rw [hevv]
    rfl
  · refine ⟨⟨0, L, A, (if L < (1e10 : ℚ) then 1 else 0), 0⟩, ?_, ?_⟩
    · rw [hl2, hsB]
      show (s₁.valLog ++ Δl).head? = _
      rw [hlog1]
      rfl
    · intro hL
      refine ⟨by rw [if_pos hL], ?_⟩
      obtain ⟨o, ho, hm⟩ := hmem hL
      refine ⟨⟨0, o, s.weights⟩, ?_⟩
      rw [hf, hsB]
      show _ ∈ Δf ++ s₁.files
      exact List.mem_append_right Δf hm

/-- C9-amended witness: a concrete run whose first validation loss is 1,
below the sentinel. -/
theorem first_validation_best_amended_witness :
    exState.rank = 0 ∧ exState.events = [] ∧ exState.valLog = [] ∧ ¬ (1 = 0) ∧
    ∃ s', train fwdOne (fun w _ => w) 1 1 1 false none (0 :: []) exState = .ok s' ∧
      ((∃ r a, s'.events.head? = some (Event.valCall r a)) ∧
       ∃ entry, s'.valLog.head? = some entry ∧
         (entry.loss < (1e10 : ℚ) → entry.saved_best = 1 ∧
           ∃ ck, (saveFilename exState.dirpath exState.modelName "BEST", ck) ∈ s'.files)) := by
  refine ⟨rfl, rfl, rfl, by decide, ?_⟩
  cases hrun : train fwdOne (fun w _ => w) 1 1 1 false none (0 :: []) exState with
  | error e =>
    have hok : (okValLog (train fwdOne (fun w _ => w) 1 1 1 false none (0 :: [])
        exState)).isSome = true := by decide
    rw [hrun] at hok
    exact absurd hok (by simp [okValLog])
  | ok s' =>
    exact ⟨s', rfl, first_validation_best_amended fwdOne (fun w _ => w) 1 1 1 false
      none 0 [] exState s' rfl rfl rfl (by decide) hrun⟩

/-- C3 (code bug): evaluating the code at a failing input.  On a
two-batch test set, `evaluate` raises an `AttributeError` inside the
first batch's attribution loop: line 459 rebinds `lrp_output` from the
accumulator list to the ndarray returned by `epsilonAlpha2Beta1`, so
line 460 calls `.extend` on a row of that ndarray.  Before the crash the
gradient-attribution context manager has been entered exactly once per
class (targets 0,1,2,3) for batch 0, and batch 1 is never attributed at
all — so the manager is *not* invoked once per class for every batch of
the test set, and `evaluate` never completes. -/
theorem evaluate_attribution_code_bug :
    evaluate exAttributor exEvalFwd exTestLoader2 exState =
      ⟨some .attrError, [(0, 0), (0, 1), (0, 2), (0, 3)], []⟩ ∧
    ¬ ((1, 0) ∈ (evaluate exAttributor exEvalFwd exTestLoader2 exState).gradTargets) := by
  decide

/-- C4 (code bug): on a (non-empty) one-batch test set, `evaluate` is
aborted by the `AttributeError` raised in the first batch's attribution
loop before the saving phase, so none of the six array files
(`indices.npy`, `labels.npy`, `predictions.npy`, `softmax.npy`,
`lrp_output.npy`, `relevance.npy`) is ever saved. -/
theorem evaluate_save_code_bug :
    (evaluate exAttributor exEvalFwd exTestLoader1 exState).err = some .attrError ∧
    (evaluate exAttributor exEvalFwd exTestLoader1 exState).savedFiles = [] := by
  decide

/-- C8 counterexample: on a batch of two one-element inputs, with an
attributor whose attribution equals the input batch, the relevance
returned by `epsilonAlpha2Beta1` is `attribution.sum(0)` per class: each
class block is a single score per element position with the two inputs'
contributions summed (1 + 2 = 3).  The result has 4 scores — one per
class — not the 4 × (2 × 1) separate scores that one score per element
of *each input of the batch* would require. -/
theorem relevance_not_per_input :
    (epsilonAlpha2Beta1 exAttributor [[1], [2]]).1.2 = [3, 3, 3, 3] ∧
    ¬ ((epsilonAlpha2Beta1 exAttributor [[1], [2]]).1.2.length = 4 * (2 * 1)) := by
  decide

theorem length_addRows (a b : List ℚ) : (addRows a b).length = min a.length b.length := by
  simp [addRows]

theorem length_sumRows {E : Nat} (l : List (List ℚ)) (hne : l ≠ [])
    (hE : ∀ r ∈ l, r.length = E) : (sumRows l).length = E := by
  induction l with
  | nil => exact absurd rfl hne
  | cons r rs ih =>
    cases rs with
    | nil => simpa using hE r (by simp)
    | cons r' rs' =>
      show (addRows r (sumRows (r' :: rs'))).length = E
      rw [length_addRows, hE r (by simp),
        ih (by simp) (fun x hx => hE x (List.mem_cons_of_mem r hx))]
      exact min_self E

/-- C8 (amended): for each class `i` in `0, 1, 2, 3`, in order, the
relevance block produced by each of the two attribution routines
(`epsilonAlpha2Beta1`, whose per-class target is `torch.eye(4)[[i]]`
tiled over the batch, and `epsilonPlusFlat`, whose target is the single
untiled row `torch.eye(4)[[i]]`) is `attribution.sum(0)` of that class's
attribution: one importance score per input-element *position*, the
contributions of the different inputs of the batch being summed over the
batch axis (so a separate score per input exists only when the batch
holds a single input); with rectangular attributions of row length `E`
the full relevance of either routine has `4 * E` entries, and each
routine invokes the attributor once per class, targeting classes
0,1,2,3. -/
theorem relevance_batch_summed {E : Nat}
    (attributor : List (List ℚ) → List (List ℚ) → List (List ℚ) × List (List ℚ))
    (data : List (List ℚ))
    (hshape : ∀ t, (attributor data t).2 ≠ [] ∧
      ∀ r ∈ (attributor data t).2, r.length = E) :
    ((epsilonAlpha2Beta1 attributor data).1.2 =
      sumRows (attributor data (List.replicate data.length (oneHot 4 0))).2 ++
      (sumRows (attributor data (List.replicate data.length (oneHot 4 1))).2 ++
      (sumRows (attributor data (List.replicate data.length (oneHot 4 2))).2 ++
      (sumRows (attributor data (List.replicate data.length (oneHot 4 3))).2 ++ []))) ∧
    (epsilonAlpha2Beta1 attributor data).1.2.length = 4 * E ∧
    (epsilonAlpha2Beta1 attributor data).2 = [0, 1, 2, 3]) ∧
    ((epsilonPlusFlat attributor data).1.2 =
      sumRows (attributor data [oneHot 4 0]).2 ++
      (sumRows (attributor data [oneHot 4 1]).2 ++
      (sumRows (attributor data [oneHot 4 2]).2 ++
      (sumRows (attributor data [oneHot 4 3]).2 ++ []))) ∧
    (epsilonPlusFlat attributor data).1.2.length = 4 * E ∧
    (epsilonPlusFlat attributor data).2 = [0, 1, 2, 3]) := by
  refine ⟨⟨rfl, ?_, rfl⟩, ⟨rfl, ?_, rfl⟩⟩
  · have hstruct : (epsilonAlpha2Beta1 attributor data).1.2 =
        sumRows (attributor data (List.replicate data.length (oneHot 4 0))).2 ++
        (sumRows (attributor data (List.replicate data.length (oneHot 4 1))).2 ++
        (sumRows (attributor data (List.replicate data.length (oneHot 4 2))).2 ++
        (sumRows (attributor data (List.replicate data.length (oneHot 4 3))).2 ++ []))) := rfl
    rw [hstruct]
    simp only [List.length_append, List.length_nil]
    rw [length_sumRows _ (hshape _).1 (hshape _).2,
      length_sumRows _ (hshape _).1 (hshape _).2,
      length_sumRows _ (hshape _).1 (hshape _).2,
      length_sumRows _ (hshape _).1 (hshape _).2]
    omega
  · have hstruct : (epsilonPlusFlat attributor data).1.2 =
        sumRows (attributor data [oneHot 4 0]).2 ++
        (sumRows (attributor data [oneHot 4 1]).2 ++
        (sumRows (attributor data [oneHot 4 2]).2 ++
        (sumRows (attributor data [oneHot 4 3]).2 ++ []))) := rfl
    rw [hstruct]
    simp only [List.length_append, List.length_nil]
    rw [length_sumRows _ (hshape _).1 (hshape _).2,
      length_sumRows _ (hshape _).1 (hshape _).2,
      length_sumRows _ (hshape _).1 (hshape _).2,
      length_sumRows _ (hshape _).1 (hshape _).2]
    omega

/-- C8-amended witness: the batch-summed relevance shape of both
attribution routines at the concrete two-input batch. -/
theorem relevance_batch_summed_witness :
    (∀ t, (exAttributor [[1], [2]] t).2 ≠ [] ∧
      ∀ r ∈ (exAttributor [[1], [2]] t).2, r.length = 1) ∧
    (epsilonAlpha2Beta1 exAttributor [[1], [2]]).1.2.length = 4 * 1 ∧
    (epsilonPlusFlat exAttributor [[1], [2]]).1.2.length = 4 * 1 := by
  have hshape : ∀ t, (exAttributor [[1], [2]] t).2 ≠ [] ∧
      ∀ r ∈ (exAttributor [[1], [2]] t).2, r.length = 1 := by
    intro t
    constructor
    · simp [exAttributor]
    · intro r hr
      have hr2 : r = [1] ∨ r = [2] := by simpa [exAttributor] using hr
      rcases hr2 with rfl | rfl <;> rfl
  exact ⟨hshape, (relevance_batch_summed exAttributor [[1], [2]] hshape).1.2.1,
    (relevance_batch_summed exAttributor [[1], [2]] hshape).2.2.1⟩

end Watchmal
